import Mathlib

/-!
Verification development for the dpct cell-tracking flow solver.

The definitions below are a shallow embedding of the FlowGraph class
(construction API, residual refresh, augmentation, division-duplicate
synchronisation and the tracking loop).  Node and arc identifiers are
natural numbers, mirroring lemon ListDigraph ids; cost vectors are lists
of rationals; flows are integers.  Fallible operations (assertions and
runtime-error throws in the original) are modelled with Except.
-/

namespace Dpct

/-- Residual arcs come in a forward and a backward direction per base arc. -/
inductive Direction where
  | forward
  | backward
deriving DecidableEq, Repr

/-- Extended cost values: marginal arc costs can be plus or minus infinity
at out-of-range indices. -/
inductive ECost where
  | negInf
  | fin (q : ℚ)
  | posInf
deriving DecidableEq, Repr

/-- Negation of an extended cost, used for backward residual costs. -/
def ECost.neg : ECost → ECost
  | .negInf => .posInf
  | .posInf => .negInf
  | .fin q => .fin (-q)

/-- A detection: entry node u, exit node v, and the internal arc u→v. -/
structure FullNode where
  u : Nat
  v : Nat
  a : Nat
deriving DecidableEq, Repr

/-- State of the FlowGraph class: the base graph (arc list plus per-arc
source/target/cost/capacity/flow maps), the source and target nodes, the
timestep labels, the set of intermediate (detection) arcs, and the
parent/duplicate maps for divisions.  Maps keyed by node are association
lists kept sorted by key, mirroring std::map iteration order. -/
structure FG where
  nextNodeId : Nat
  nextArcId : Nat
  source : Nat
  targets : List Nat
  nodeTimestepMap : Nat → Nat
  arcs : List Nat
  arcSrc : Nat → Nat
  arcTgt : Nat → Nat
  arcCosts : Nat → List ℚ
  capacityMap : Nat → Nat
  flowMap : Nat → Int
  intermediateArcs : List Nat
  parentToDuplicateMap : List (Nat × Nat)
  duplicateToParentMap : List (Nat × Nat)

/-- Insert a key/value pair into an association list sorted by key,
replacing an existing binding (std::map operator[] assignment). -/
def mapInsert : List (Nat × Nat) → Nat → Nat → List (Nat × Nat)
  | [], k, v => [(k, v)]
  | (k', v') :: rest, k, v =>
    if k < k' then (k, v) :: (k', v') :: rest
    else if k = k' then (k, v) :: rest
    else (k', v') :: mapInsert rest k v

/-- Lookup in an association list (std::map find). -/
def mapFind? (m : List (Nat × Nat)) (k : Nat) : Option Nat :=
  (m.find? (fun p => p.1 == k)).map (fun p => p.2)

/-- The FlowGraph constructor: a source node with timestep 0 and one
target node with timestep 1. -/
def newGraph : FG where
  nextNodeId := 2
  nextArcId := 0
  source := 0
  targets := [1]
  nodeTimestepMap := fun n => if n = 0 then 0 else if n = 1 then 1 else 0
  arcs := []
  arcSrc := fun _ => 0
  arcTgt := fun _ => 0
  arcCosts := fun _ => []
  capacityMap := fun _ => 0
  flowMap := fun _ => 0
  intermediateArcs := []
  parentToDuplicateMap := []
  duplicateToParentMap := []

/-- FlowGraph::addArc on plain nodes: fresh arc with the given cost
vector, zero flow, capacity equal to the cost vector length.  The
assert on a non-empty cost vector is modelled as Except. -/
def addArc (g : FG) (s t : Nat) (costs : List ℚ) : Except String (FG × Nat) :=
  if costs.length > 0 then
    let a := g.nextArcId
    .ok ({ g with
      nextArcId := a + 1
      arcs := g.arcs ++ [a]
      arcSrc := Function.update g.arcSrc a s
      arcTgt := Function.update g.arcTgt a t
      arcCosts := Function.update g.arcCosts a costs
      flowMap := Function.update g.flowMap a 0
      capacityMap := Function.update g.capacityMap a costs.length }, a)
  else .error "assert failed: costs.size() > 0"

/-- FlowGraph::addNode: allocates the pair (u, v) of detection nodes with
timesteps 2t+1 and 2t+2, the intermediate arc u→v carrying the detection
costs, and relabels all targets to 2t+3 whenever 2t+2 reaches the current
target timestep. -/
def addNode (g : FG) (costs : List ℚ) (timestep : Nat) : Except String (FG × FullNode) :=
  if costs.length > 0 then do
    let u := g.nextNodeId
    let v := g.nextNodeId + 1
    let g1 := { g with nextNodeId := g.nextNodeId + 2 }
    let (g2, a) ← addArc g1 u v costs
    let g3 := { g2 with
      intermediateArcs := g2.intermediateArcs ++ [a]
      nodeTimestepMap :=
        Function.update (Function.update g2.nodeTimestepMap u (timestep * 2 + 1)) v
          (timestep * 2 + 2) }
    let g4 := match g3.targets with
      | [] => g3
      | t0 :: _ =>
        if timestep * 2 + 2 ≥ g3.nodeTimestepMap t0 then
          { g3 with nodeTimestepMap := fun n =>
              if n ∈ g3.targets then timestep * 2 + 3 else g3.nodeTimestepMap n }
        else g3
    .ok (g4, ⟨u, v, a⟩)
  else .error "assert failed: costs.size() > 0"

/-- FlowGraph::addArc on detections: connects the exit node of the source
detection to the entry node of the target detection. -/
def addArcF (g : FG) (s t : FullNode) (costs : List ℚ) : Except String (FG × Nat) :=
  addArc g s.v t.u costs

/-- Modelled from the spec: FlowGraph::isTarget is declared in the missing
header; a node is a target iff it belongs to the target set (§3). -/
def isTarget (g : FG) (n : Nat) : Bool :=
  g.targets.contains n

/-- The out-arcs of a node, in arc insertion order (lemon OutArcIt; the
theorems below only use this under hypotheses that make the traversal
order immaterial). -/
def outArcIds (g : FG) (n : Nat) : List Nat :=
  g.arcs.filter (fun a => g.arcSrc a == n)

/-- FlowGraph::allowMitosis: allocates the duplicate node with the parent
exit node's timestep, adds the division arc source→duplicate with the
single-entry cost vector, mirrors every non-target out-arc of the parent
exit node as a unit-capacity arc out of the duplicate, and records the
parent/duplicate bijection. -/
def allowMitosis (g : FG) (parent : FullNode) (divisionCost : ℚ) :
    Except String (FG × Nat) := do
  let duplicate := g.nextNodeId
  let g1 := { g with
    nextNodeId := g.nextNodeId + 1
    nodeTimestepMap :=
      Function.update g.nodeTimestepMap duplicate (g.nodeTimestepMap parent.v) }
  let (g2, a) ← addArc g1 g1.source duplicate [divisionCost]
  let g3 ← (outArcIds g parent.v).foldlM (fun gacc oa =>
      if !(isTarget gacc (g.arcTgt oa)) then
        (addArc gacc duplicate (g.arcTgt oa) [(g.arcCosts oa).headI]).map Prod.fst
      else pure gacc) g2
  .ok ({ g3 with
    parentToDuplicateMap := mapInsert g3.parentToDuplicateMap parent.v duplicate
    duplicateToParentMap := mapInsert g3.duplicateToParentMap duplicate parent.v }, a)

/-- Modelled from the spec: FlowGraph::getArcCost is declared in the
missing header; §4.1 defines the marginal arc cost as c[n] for
0 ≤ n < k, plus infinity for n ≥ k, and minus infinity for n < 0. -/
def getArcCost (costs : List ℚ) (n : Int) : ECost :=
  if n < 0 then .negInf
  else if h : n.toNat < costs.length then .fin (costs.get ⟨n.toNat, h⟩)
  else .posInf

/-- State of the residual graph: per residual arc (base arc and
direction) a residual cost, a residual capacity, an enabled bit, and the
provided/forbidden token lists. -/
structure RG where
  resCost : Nat → Direction → ECost
  resCap : Nat → Direction → Int
  enabledMap : Nat → Direction → Bool
  providedTokens : Nat → Direction → List Nat
  forbiddenTokens : Nat → Direction → List Nat

/-- Pointwise update of a residual-arc map. -/
def updRes {α : Type} (f : Nat → Direction → α) (a : Nat) (d : Direction) (v : α) :
    Nat → Direction → α :=
  fun a' d' => if a' = a ∧ d' = d then v else f a' d'

/-- The residual graph before the first refresh: no capacities, no
tokens, nothing enabled. -/
def emptyRG : RG where
  resCost := fun _ _ => .fin 0
  resCap := fun _ _ => 0
  enabledMap := fun _ _ => false
  providedTokens := fun _ _ => []
  forbiddenTokens := fun _ _ => []

/-- Modelled from the spec: ResidualGraph::updateArc (implementation not
under src) stores the given residual cost and capacity on the addressed
residual arc (§4.3). -/
def rgUpdateArc (rg : RG) (a : Nat) (d : Direction) (cost : ECost) (cap : Int) : RG :=
  { rg with
    resCost := updRes rg.resCost a d cost
    resCap := updRes rg.resCap a d cap }

/-- Modelled from the spec: ResidualGraph::addProvidedToken (implementation
not under src) appends a token to the provided list of a residual arc
(§4.3). -/
def addProvidedToken (rg : RG) (a : Nat) (d : Direction) (token : Nat) : RG :=
  { rg with providedTokens :=
      updRes rg.providedTokens a d (rg.providedTokens a d ++ [token]) }

/-- Modelled from the spec: ResidualGraph::addForbiddenToken
(implementation not under src) appends a token to the forbidden list of a
residual arc (§4.3). -/
def addForbiddenToken (rg : RG) (a : Nat) (d : Direction) (token : Nat) : RG :=
  { rg with forbiddenTokens :=
      updRes rg.forbiddenTokens a d (rg.forbiddenTokens a d ++ [token]) }

/-- Modelled from the spec: enabling a base arc sets the enabled bit of
both of its residual arcs (§4.5 enables every arc at initialisation). -/
def enableArc (rg : RG) (a : Nat) (state : Bool) : RG :=
  { rg with enabledMap := fun a' d' => if a' = a then state else rg.enabledMap a' d' }

/-- FlowGraph::updateArc: checks 0 ≤ flow ≤ capacity (throwing
otherwise), then refreshes the forward residual arc with cost
getArcCost(a, flow) and capacity (capacity − flow) and the backward
residual arc with cost −getArcCost(a, flow−1) and capacity flow. -/
def updateArc (g : FG) (rg : RG) (a : Nat) : Except String RG :=
  let flow := g.flowMap a
  let capacity : Int := g.capacityMap a
  if flow < 0 then .error "Found Arc with negative flow!"
  else if flow > capacity then .error "Found Arc with more flow than capacity!"
  else
    let forwardCost := getArcCost (g.arcCosts a) flow
    let rg1 := rgUpdateArc rg a .forward forwardCost (capacity - flow)
    let backwardCost := (getArcCost (g.arcCosts a) (flow - 1)).neg
    .ok (rgUpdateArc rg1 a .backward backwardCost flow)

/-- Write an arc's flow. -/
def setFlow (g : FG) (a : Nat) (f : Int) : FG :=
  { g with flowMap := Function.update g.flowMap a f }

/-- One iteration of the token-placing first pass of FlowGraph
residual-graph initialisation: the arc is refreshed and enabled; an arc
whose target is a division duplicate provides the parent's id on its
forward residual arc; an arc whose target is a parent with a duplicate
forbids the parent's id on its backward residual arc. -/
def tokenPassStep (g : FG) (rg : RG) (a : Nat) : Except String RG := do
  let rg1 ← updateArc g rg a
  let rg2 := enableArc rg1 a true
  match mapFind? g.duplicateToParentMap (g.arcTgt a) with
  | some parent => pure (addProvidedToken rg2 a .forward parent)
  | none =>
    match mapFind? g.parentToDuplicateMap (g.arcTgt a) with
    | some _ => pure (addForbiddenToken rg2 a .backward (g.arcTgt a))
    | none => pure rg2

/-- The first loop of FlowGraph residual-graph initialisation, applied to
every arc of the base graph.  (The subsequent updateEnabledArc pass of
the initialisation does not modify tokens.) -/
def initResidualGraphTokenPass (g : FG) (rg : RG) : Except String RG :=
  g.arcs.foldlM (tokenPassStep g) rg

/-- One path element of FlowGraph::augmentUnitFlow: add the signed unit
to the arc's flow and refresh its residual arcs; then, if the arc leaves
a division duplicate, propagate the delta to the parent's arc with the
same target, and if it leaves a parent that has a duplicate, clamp the
duplicate's arc with the same target to min(flow, 1). -/
def augmentStep (st : FG × RG) (af : Nat × Int) : Except String (FG × RG) := do
  let g := st.1
  let a := af.1
  let g1 := setFlow g a (g.flowMap a + af.2)
  let rg1 ← updateArc g1 st.2 a
  match mapFind? g1.duplicateToParentMap (g1.arcSrc a) with
  | some parent =>
    match (outArcIds g1 parent).find? (fun oa => g1.arcTgt oa == g1.arcTgt a) with
    | some oa =>
      let g2 := setFlow g1 oa (g1.flowMap oa + af.2)
      let rg2 ← updateArc g2 rg1 oa
      pure (g2, rg2)
    | none => pure (g1, rg1)
  | none =>
    match mapFind? g1.parentToDuplicateMap (g1.arcSrc a) with
    | some dup =>
      match (outArcIds g1 dup).find? (fun oa => g1.arcTgt oa == g1.arcTgt a) with
      | some oa =>
        let g2 := setFlow g1 oa (min (g1.flowMap a) 1)
        let rg2 ← updateArc g2 rg1 oa
        pure (g2, rg2)
      | none => pure (g1, rg1)
    | none => pure (g1, rg1)

/-- FlowGraph::augmentUnitFlow over a whole path. -/
def augmentUnitFlow (g : FG) (rg : RG) (p : List (Nat × Int)) :
    Except String (FG × RG) :=
  p.foldlM augmentStep (g, rg)

/-- FlowGraph::synchronizeDivisionDuplicateArcFlows, inner loops for one
parent/duplicate pair: for every out-arc of the parent, find the first
out-arc of the duplicate with the same target, set the duplicate arc to
min(max of both flows, 1) and the parent arc to the max. -/
def syncNodePair (g : FG) (vd : Nat × Nat) : FG :=
  (outArcIds g vd.1).foldl (fun gacc oa =>
    let origFlow := gacc.flowMap oa
    match (outArcIds gacc vd.2).find? (fun da => gacc.arcTgt da == gacc.arcTgt oa) with
    | some da =>
      let flow := max origFlow (gacc.flowMap da)
      setFlow (setFlow gacc da (min flow 1)) oa flow
    | none => gacc) g

/-- FlowGraph::synchronizeDivisionDuplicateArcFlows: fold over the
parent→duplicate map. -/
def synchronizeDivisionDuplicateArcFlows (g : FG) : FG :=
  g.parentToDuplicateMap.foldl syncNodePair g

/-- The body of syncNodePair's fold over the parent's out-arcs, as a
named function so the fold can be reasoned about stepwise. -/
def syncStep (vd : Nat × Nat) (gacc : FG) (oa : Nat) : FG :=
  let origFlow := gacc.flowMap oa
  match (outArcIds gacc vd.2).find? (fun da => gacc.arcTgt da == gacc.arcTgt oa) with
  | some da =>
    let flow := max origFlow (gacc.flowMap da)
    setFlow (setFlow gacc da (min flow 1)) oa flow
  | none => gacc

/-- Two flow-graph states with identical structure (only flows may
differ): the shape that synchronisation reads but never writes. -/
structure ShapeEq (g g' : FG) : Prop where
  arcs : g'.arcs = g.arcs
  src : g'.arcSrc = g.arcSrc
  tgt : g'.arcTgt = g.arcTgt
  p2d : g'.parentToDuplicateMap = g.parentToDuplicateMap
  d2p : g'.duplicateToParentMap = g.duplicateToParentMap

/-- Result of ResidualGraph::findShortestPath as consumed by the
tracking loop: the path length and the path cost. -/
structure SPResult where
  len : Nat
  cost : ℚ
deriving DecidableEq, Repr

/-- The tolerance in the tracking loop's termination test
(result.second > -0.00000001). -/
def tol : ℚ := 1 / 100000000

/-- Loop state of FlowGraph::maxFlowMinCostTracking: abstract solver
state, current energy, iteration counter, and the number of
augmentations performed. -/
structure LoopState (σ : Type) where
  st : σ
  energy : ℚ
  iter : Nat
  augCount : Nat
deriving DecidableEq, Repr

/-- One body execution of the do-while loop of maxFlowMinCostTracking:
query the shortest path; break when its cost is above the tolerance;
otherwise augment and update when the path is non-empty of negative
cost, add the cost to the energy, and increment the iteration counter.
The Bool is the do-while continuation condition
(path non-empty, cost negative, and iter below maxNumPaths unless
maxNumPaths < 1). -/
def trackBody {σ : Type} (findSP : σ → SPResult) (upd : σ → SPResult → σ)
    (maxNumPaths : Nat) (ls : LoopState σ) : LoopState σ × Bool :=
  let result := findSP ls.st
  if result.cost > -tol then (ls, false)
  else
    let ls' :=
      if 0 < result.len ∧ result.cost < 0 then
        { st := upd ls.st result
          energy := ls.energy + result.cost
          iter := ls.iter + 1
          augCount := ls.augCount + 1 }
      else { ls with iter := ls.iter + 1 }
    (ls', decide (0 < result.len) && decide (result.cost < 0) &&
      (decide (maxNumPaths < 1) || decide (ls'.iter < maxNumPaths)))

/-- The do-while loop of maxFlowMinCostTracking, with explicit fuel; none
means the fuel ran out with the loop still continuing. -/
def trackLoop {σ : Type} (findSP : σ → SPResult) (upd : σ → SPResult → σ)
    (maxNumPaths : Nat) : Nat → LoopState σ → Option (LoopState σ)
  | 0, _ => none
  | fuel + 1, ls =>
    let step := trackBody findSP upd maxNumPaths ls
    if step.2 then trackLoop findSP upd maxNumPaths fuel step.1
    else some step.1

/-- FlowGraph::maxFlowMinCostTracking: run the loop from the initial
energy and report the final energy. -/
def maxFlowMinCostTracking {σ : Type} (findSP : σ → SPResult) (upd : σ → SPResult → σ)
    (initialStateEnergy : ℚ) (maxNumPaths : Nat) (fuel : Nat) (s0 : σ) : Option ℚ :=
  (trackLoop findSP upd maxNumPaths fuel ⟨s0, initialStateEnergy, 0, 0⟩).map
    (fun ls => ls.energy)

/-! ## C4: residual refresh performed by updateArc -/

/-- C4: for every base arc with cost vector c, flow f and capacity k
satisfying 0 ≤ f ≤ k, updateArc succeeds and sets the forward residual
arc of the base arc to residual capacity k − f and residual cost
arcCost(a, f), and the backward residual arc to residual capacity f and
residual cost −arcCost(a, f−1). -/
theorem updateArc_refreshes_residual (g : FG) (rg : RG) (a : Nat)
    (h0 : 0 ≤ g.flowMap a) (h1 : g.flowMap a ≤ (g.capacityMap a : Int)) :
    (updateArc g rg a).map (fun rg' =>
      (rg'.resCap a .forward, rg'.resCost a .forward,
       rg'.resCap a .backward, rg'.resCost a .backward)) =
    .ok ((g.capacityMap a : Int) - g.flowMap a,
         getArcCost (g.arcCosts a) (g.flowMap a),
         g.flowMap a,
         (getArcCost (g.arcCosts a) (g.flowMap a - 1)).neg) := by
  unfold updateArc
  rw [if_neg (not_lt.mpr h0), if_neg (not_lt.mpr h1)]
  simp [Except.map, rgUpdateArc, updRes]

/-- Concrete graph for the C4 witness: one arc 0→1 with cost vector
[5, 7], hence capacity 2 and flow 0. -/
def gC4 : FG :=
  match addArc newGraph 0 1 [5, 7] with
  | .ok p => p.1
  | .error _ => newGraph

/-- C4 witness: evaluating updateArc on the concrete graph. -/
theorem updateArc_refreshes_residual_witness :
    (0 ≤ gC4.flowMap 0 ∧ gC4.flowMap 0 ≤ (gC4.capacityMap 0 : Int)) ∧
    (updateArc gC4 emptyRG 0).map (fun rg' =>
      (rg'.resCap 0 .forward, rg'.resCost 0 .forward,
       rg'.resCap 0 .backward, rg'.resCost 0 .backward)) =
    .ok (2, .fin 5, 0, ECost.posInf) := by
  refine ⟨⟨by decide, by decide⟩, ?_⟩
  rw [updateArc_refreshes_residual gC4 emptyRG 0 (by decide) (by decide)]
  rfl

/-! ## C5: allowMitosis on a parent with no out-arcs -/

/-- Concrete graph for C5: a single detection, no out-arcs added. -/
def g5pair : Except String (FG × FullNode) := addNode newGraph [-1] 0

/-- The graph holding one detection and nothing else. -/
def g5 : FG :=
  match g5pair with
  | .ok p => p.1
  | .error _ => newGraph

/-- The single detection of g5. -/
def f5 : FullNode :=
  match g5pair with
  | .ok p => p.2
  | .error _ => ⟨0, 0, 0⟩

/-- C5 counterexample: calling allowMitosis on a parent with no out-arcs
does not fail; it returns .ok with the division arc source→duplicate,
and the duplicate has no mirrored out-arcs.  No construction error is
reported. -/
theorem allowMitosis_no_outarc_succeeds_cex :
    outArcIds g5 f5.v = [] ∧
    (allowMitosis g5 f5 (-2)).map (fun r =>
      (outArcIds r.1 g5.nextNodeId, r.1.arcSrc r.2, r.1.arcTgt r.2, r.1.arcCosts r.2)) =
    .ok ([], g5.source, g5.nextNodeId, [-2]) :=
  ⟨by decide, rfl⟩

/-- C5 amended: calling allowMitosis on a parent before any out-arc of
that parent exists succeeds (no construction error): it adds the division
arc source→duplicate with cost vector [divisionCost] and the duplicate is
left with no mirrored out-arcs. -/
theorem allowMitosis_no_outarc_behaviour (g : FG) (parent : FullNode) (c : ℚ)
    (hsrc : g.source < g.nextNodeId)
    (harcids : ∀ a ∈ g.arcs, a < g.nextArcId)
    (harcsrc : ∀ a ∈ g.arcs, g.arcSrc a < g.nextNodeId)
    (hout : outArcIds g parent.v = []) :
    (allowMitosis g parent c).map (fun r =>
      (outArcIds r.1 g.nextNodeId, r.1.arcSrc r.2, r.1.arcTgt r.2, r.1.arcCosts r.2)) =
    .ok ([], g.source, g.nextNodeId, [c]) := by
  have hmap : allowMitosis g parent c = .ok
      ({ nextNodeId := g.nextNodeId + 1
         nextArcId := g.nextArcId + 1
         source := g.source
         targets := g.targets
         nodeTimestepMap :=
           Function.update g.nodeTimestepMap g.nextNodeId (g.nodeTimestepMap parent.v)
         arcs := g.arcs ++ [g.nextArcId]
         arcSrc := Function.update g.arcSrc g.nextArcId g.source
         arcTgt := Function.update g.arcTgt g.nextArcId g.nextNodeId
         arcCosts := Function.update g.arcCosts g.nextArcId [c]
         capacityMap := Function.update g.capacityMap g.nextArcId 1
         flowMap := Function.update g.flowMap g.nextArcId 0
         intermediateArcs := g.intermediateArcs
         parentToDuplicateMap := mapInsert g.parentToDuplicateMap parent.v g.nextNodeId
         duplicateToParentMap := mapInsert g.duplicateToParentMap g.nextNodeId parent.v },
       g.nextArcId) := by
    unfold allowMitosis
    rw [hout]
    rfl
  rw [hmap]
  simp only [Except.map, Except.ok.injEq, Prod.mk.injEq]
  refine ⟨?_, ?_, ?_, ?_⟩
  · unfold outArcIds
    apply List.filter_eq_nil_iff.mpr
    intro a ha
    rw [List.mem_append] at ha
    simp only [beq_iff_eq]
    rcases ha with ha | ha
    · have hne : a ≠ g.nextArcId := Nat.ne_of_lt (harcids a ha)
      rw [Function.update_noteq hne]
      exact Nat.ne_of_lt (harcsrc a ha)
    · rw [List.mem_singleton] at ha
      subst ha
      rw [Function.update_same]
      exact Nat.ne_of_lt hsrc
  · exact Function.update_same _ _ _
  · exact Function.update_same _ _ _
  · exact Function.update_same _ _ _

/-- C5 witness for the amended statement, on the concrete graph g5. -/
theorem allowMitosis_no_outarc_behaviour_witness :
    (allowMitosis g5 f5 (-7)).map (fun r =>
      (outArcIds r.1 g5.nextNodeId, r.1.arcSrc r.2, r.1.arcTgt r.2, r.1.arcCosts r.2)) =
    .ok ([], g5.source, g5.nextNodeId, [-7]) :=
  allowMitosis_no_outarc_behaviour g5 f5 (-7) (by decide) (by decide) (by decide)
    (by decide)

/-! ## C6, C7, C9: the tracking loop -/

/-- If the loop body signals continuation and maxNumPaths is at least 1,
the iteration counter advanced by one and stayed below maxNumPaths. -/
theorem trackBody_cont_iter {σ : Type} (findSP : σ → SPResult) (upd : σ → SPResult → σ)
    (m : Nat) (ls : LoopState σ) (hm : 1 ≤ m)
    (h : (trackBody findSP upd m ls).2 = true) :
    (trackBody findSP upd m ls).1.iter = ls.iter + 1 ∧
    (trackBody findSP upd m ls).1.iter < m := by
  simp only [trackBody] at h ⊢
  by_cases hbr : (findSP ls.st).cost > -tol
  · rw [if_pos hbr] at h
    exact absurd h (by simp)
  · rw [if_neg hbr] at h ⊢
    by_cases haug : 0 < (findSP ls.st).len ∧ (findSP ls.st).cost < 0
    · rw [if_pos haug] at h ⊢
      simp only [Bool.and_eq_true, Bool.or_eq_true, decide_eq_true_eq] at h
      refine ⟨rfl, ?_⟩
      rcases h.2 with hl | hr
      · omega
      · exact hr
    · rw [if_neg haug] at h ⊢
      simp only [Bool.and_eq_true, Bool.or_eq_true, decide_eq_true_eq] at h
      refine ⟨rfl, ?_⟩
      rcases h.2 with hl | hr
      · omega
      · exact hr

/-- The loop body advances the iteration counter by at most one. -/
theorem trackBody_iter_le {σ : Type} (findSP : σ → SPResult) (upd : σ → SPResult → σ)
    (m : Nat) (ls : LoopState σ) :
    (trackBody findSP upd m ls).1.iter ≤ ls.iter + 1 := by
  simp only [trackBody]
  by_cases hbr : (findSP ls.st).cost > -tol
  · rw [if_pos hbr]
    exact Nat.le_succ _
  · rw [if_neg hbr]
    by_cases haug : 0 < (findSP ls.st).len ∧ (findSP ls.st).cost < 0
    · rw [if_pos haug]
    · rw [if_neg haug]

/-- The loop body keeps the augmentation count at or below the iteration
counter. -/
theorem trackBody_augCount {σ : Type} (findSP : σ → SPResult) (upd : σ → SPResult → σ)
    (m : Nat) (ls : LoopState σ) (h : ls.augCount ≤ ls.iter) :
    (trackBody findSP upd m ls).1.augCount ≤ (trackBody findSP upd m ls).1.iter := by
  simp only [trackBody]
  by_cases hbr : (findSP ls.st).cost > -tol
  · rw [if_pos hbr]
    exact h
  · rw [if_neg hbr]
    by_cases haug : 0 < (findSP ls.st).len ∧ (findSP ls.st).cost < 0
    · rw [if_pos haug]
      exact Nat.succ_le_succ h
    · rw [if_neg haug]
      exact Nat.le_succ_of_le h

/-- With a positive maxNumPaths bound, the loop returns within any fuel
of at least maxNumPaths − iter iterations. -/
theorem trackLoop_isSome {σ : Type} (findSP : σ → SPResult) (upd : σ → SPResult → σ)
    (m : Nat) (hm : 1 ≤ m) :
    ∀ fuel : Nat, ∀ ls : LoopState σ, m ≤ ls.iter + fuel → 1 ≤ fuel →
      (trackLoop findSP upd m fuel ls).isSome = true := by
  intro fuel
  induction fuel with
  | zero => intro ls _ h; omega
  | succ k ih =>
    intro ls hfuel _
    simp only [trackLoop]
    by_cases hc : (trackBody findSP upd m ls).2 = true
    · rw [if_pos hc]
      obtain ⟨hstep, hlt⟩ := trackBody_cont_iter findSP upd m ls hm hc
      exact ih (trackBody findSP upd m ls).1 (by omega) (by omega)
    · rw [if_neg hc]
      rfl

/-- With a positive maxNumPaths bound, any returned loop state performed
at most maxNumPaths augmentations. -/
theorem trackLoop_augCount_le {σ : Type} (findSP : σ → SPResult) (upd : σ → SPResult → σ)
    (m : Nat) (hm : 1 ≤ m) :
    ∀ fuel : Nat, ∀ ls out : LoopState σ, ls.augCount ≤ ls.iter → ls.iter < m →
      trackLoop findSP upd m fuel ls = some out → out.augCount ≤ m := by
  intro fuel
  induction fuel with
  | zero => intro ls out _ _ h; exact absurd h (by simp [trackLoop])
  | succ k ih =>
    intro ls out haug hiter h
    simp only [trackLoop] at h
    by_cases hc : (trackBody findSP upd m ls).2 = true
    · rw [if_pos hc] at h
      obtain ⟨-, hlt⟩ := trackBody_cont_iter findSP upd m ls hm hc
      exact ih (trackBody findSP upd m ls).1 out
        (trackBody_augCount findSP upd m ls haug) hlt h
    · rw [if_neg hc] at h
      rw [Option.some_inj] at h
      subst h
      have h1 := trackBody_augCount findSP upd m ls haug
      have h2 := trackBody_iter_le findSP upd m ls
      omega

/-- C6: for every call of the tracking loop with maxNumPaths ≥ 1 and
enough fuel, the augment-update loop returns, having performed at most
maxNumPaths augmentation iterations. -/
theorem maxFlowMinCostTracking_at_most_maxNumPaths {σ : Type} (findSP : σ → SPResult)
    (upd : σ → SPResult → σ) (m fuel : Nat) (s0 : σ) (e0 : ℚ)
    (hm : 1 ≤ m) (hf : m ≤ fuel) :
    (trackLoop findSP upd m fuel ⟨s0, e0, 0, 0⟩).isSome = true ∧
    ((trackLoop findSP upd m fuel ⟨s0, e0, 0, 0⟩).all
      fun out => decide (out.augCount ≤ m)) = true := by
  constructor
  · exact trackLoop_isSome findSP upd m hm fuel ⟨s0, e0, 0, 0⟩
      (by show m ≤ 0 + fuel; omega) (by omega)
  · cases hres : trackLoop findSP upd m fuel ⟨s0, e0, 0, 0⟩ with
    | none => rfl
    | some out =>
      exact decide_eq_true (trackLoop_augCount_le findSP upd m hm fuel ⟨s0, e0, 0, 0⟩
        out (Nat.le_refl 0) (by show 0 < m; omega) hres)

/-- Constant shortest-path oracle used by the loop witnesses: always a
length-one path of cost −1. -/
def cfW : Unit → SPResult := fun _ => ⟨1, -1⟩

/-- Trivial state update used by the loop witnesses. -/
def cuW : Unit → SPResult → Unit := fun s _ => s

/-- C6 witness: the loop with maxNumPaths = 1 and fuel 1 returns with at
most one augmentation. -/
theorem maxFlowMinCostTracking_at_most_maxNumPaths_witness :
    (trackLoop cfW cuW 1 1 ⟨(), 0, 0, 0⟩).isSome = true ∧
    ((trackLoop cfW cuW 1 1 ⟨(), 0, 0, 0⟩).all
      fun out => decide (out.augCount ≤ 1)) = true :=
  maxFlowMinCostTracking_at_most_maxNumPaths cfW cuW 1 1 () 0 (Nat.le_refl 1)
    (Nat.le_refl 1)

/-- C7: the maintained energy is monotone non-increasing: one body
execution never increases the energy, any state returned by the loop has
energy at most the entry energy, and the energy returned by
maxFlowMinCostTracking is at most the initialStateEnergy argument. -/
theorem maxFlowMinCostTracking_energy_monotone {σ : Type} (findSP : σ → SPResult)
    (upd : σ → SPResult → σ) (m : Nat) :
    (∀ ls : LoopState σ, (trackBody findSP upd m ls).1.energy ≤ ls.energy) ∧
    (∀ fuel : Nat, ∀ ls out : LoopState σ,
      trackLoop findSP upd m fuel ls = some out → out.energy ≤ ls.energy) ∧
    (∀ e0 : ℚ, ∀ fuel : Nat, ∀ s0 : σ, ∀ E : ℚ,
      maxFlowMinCostTracking findSP upd e0 m fuel s0 = some E → E ≤ e0) := by
  have hstep : ∀ ls : LoopState σ, (trackBody findSP upd m ls).1.energy ≤ ls.energy := by
    intro ls
    simp only [trackBody]
    by_cases hbr : (findSP ls.st).cost > -tol
    · rw [if_pos hbr]
    · rw [if_neg hbr]
      by_cases haug : 0 < (findSP ls.st).len ∧ (findSP ls.st).cost < 0
      · rw [if_pos haug]
        have hneg : (findSP ls.st).cost < 0 := haug.2
        show ls.energy + (findSP ls.st).cost ≤ ls.energy
        linarith
      · rw [if_neg haug]
  have hloop : ∀ fuel : Nat, ∀ ls out : LoopState σ,
      trackLoop findSP upd m fuel ls = some out → out.energy ≤ ls.energy := by
    intro fuel
    induction fuel with
    | zero => intro ls out h; exact absurd h (by simp [trackLoop])
    | succ k ih =>
      intro ls out h
      simp only [trackLoop] at h
      by_cases hc : (trackBody findSP upd m ls).2 = true
      · rw [if_pos hc] at h
        exact le_trans (ih (trackBody findSP upd m ls).1 out h) (hstep ls)
      · rw [if_neg hc] at h
        rw [Option.some_inj] at h
        subst h
        exact hstep ls
  refine ⟨hstep, hloop, ?_⟩
  intro e0 fuel s0 E h
  unfold maxFlowMinCostTracking at h
  cases hres : trackLoop findSP upd m fuel ⟨s0, e0, 0, 0⟩ with
  | none => rw [hres] at h; exact absurd h (by simp)
  | some out =>
    rw [hres] at h
    have hE : out.energy = E := Option.some.inj h
    rw [← hE]
    exact hloop fuel ⟨s0, e0, 0, 0⟩ out hres

/-- Constant break oracle used by the C7 witness: a zero-cost result, so
the loop breaks at once. -/
def cfB : Unit → SPResult := fun _ => ⟨0, 0⟩

/-- C7 witness: the loop on the break oracle returns immediately with the
initial energy, which the monotonicity theorem bounds by itself. -/
theorem maxFlowMinCostTracking_energy_monotone_witness :
    trackLoop cfB cuW 2 1 ⟨(), 5, 0, 0⟩ = some ⟨(), 5, 0, 0⟩ ∧ (5 : ℚ) ≤ 5 := by
  have hbr : ((0 : ℚ) > -tol) := by norm_num [tol]
  have hloop : trackLoop cfB cuW 2 1 ⟨(), 5, 0, 0⟩ = some ⟨(), 5, 0, 0⟩ := by
    simp only [trackLoop, trackBody, cfB]
    rw [if_pos hbr]
    rfl
  exact ⟨hloop,
    (maxFlowMinCostTracking_energy_monotone cfB cuW 2).2.1 1 ⟨(), 5, 0, 0⟩
      ⟨(), 5, 0, 0⟩ hloop⟩

/-- C9: with maxNumPaths = 0 the loop is not bounded by any iteration
cap: the continuation condition is exactly that the shortest-path result
has a non-empty path and cost at most −1e-8 (independent of the
iteration counter), and when every shortest-path result stays below the
tolerance with a non-empty path the loop never returns, for any fuel. -/
theorem trackLoop_unbounded_when_maxNumPaths_zero {σ : Type} (findSP : σ → SPResult)
    (upd : σ → SPResult → σ) :
    (∀ ls : LoopState σ, (trackBody findSP upd 0 ls).2 =
      (decide (0 < (findSP ls.st).len) && decide ((findSP ls.st).cost ≤ -tol))) ∧
    (∀ fuel : Nat, ∀ ls : LoopState σ,
      (∀ s : σ, 0 < (findSP s).len ∧ (findSP s).cost ≤ -tol) →
      trackLoop findSP upd 0 fuel ls = none) := by
  have htol : (0 : ℚ) < tol := by norm_num [tol]
  have hbody : ∀ ls : LoopState σ, (trackBody findSP upd 0 ls).2 =
      (decide (0 < (findSP ls.st).len) && decide ((findSP ls.st).cost ≤ -tol)) := by
    intro ls
    simp only [trackBody]
    by_cases hbr : (findSP ls.st).cost > -tol
    · rw [if_pos hbr]
      have hnle : ¬ (findSP ls.st).cost ≤ -tol := by linarith
      simp [hnle]
    · rw [if_neg hbr]
      have hle : (findSP ls.st).cost ≤ -tol := not_lt.mp hbr
      have hneg : (findSP ls.st).cost < 0 := by linarith
      by_cases haug : 0 < (findSP ls.st).len ∧ (findSP ls.st).cost < 0
      · rw [if_pos haug]
        simp [haug.1, hle, hneg]
      · rw [if_neg haug]
        have hlen : ¬ 0 < (findSP ls.st).len := fun hl => haug ⟨hl, hneg⟩
        simp [hlen, hle]
  refine ⟨hbody, ?_⟩
  intro fuel
  induction fuel with
  | zero => intro ls _; rfl
  | succ k ih =>
    intro ls hall
    simp only [trackLoop]
    have hcont : (trackBody findSP upd 0 ls).2 = true := by
      rw [hbody ls]
      obtain ⟨hlen, hcost⟩ := hall ls.st
      simp [hlen, hcost]
    rw [if_pos hcont]
    exact ih (trackBody findSP upd 0 ls).1 hall

/-- C9 witness: with the constant cost −1 oracle the loop runs out of any
fuel, and the continuation condition evaluates as stated. -/
theorem trackLoop_unbounded_when_maxNumPaths_zero_witness :
    (trackBody cfW cuW 0 ⟨(), 0, 0, 0⟩).2 =
      (decide ((0 : Nat) < (cfW ()).len) && decide ((cfW ()).cost ≤ -tol)) ∧
    trackLoop cfW cuW 0 3 ⟨(), 0, 0, 0⟩ = none :=
  ⟨(trackLoop_unbounded_when_maxNumPaths_zero cfW cuW).1 ⟨(), 0, 0, 0⟩,
   (trackLoop_unbounded_when_maxNumPaths_zero cfW cuW).2 3 ⟨(), 0, 0, 0⟩
     (fun _ => ⟨Nat.one_pos, by norm_num [cfW, tol]⟩)⟩

/-! ## C8: timesteps assigned by addNode and the target-timestep invariant -/

/-- Construction invariant of the FlowGraph state: identifiers are dense
below the allocation counters, all targets share one timestep, and every
intermediate (detection) arc has non-target endpoints whose timesteps lie
strictly below the shared target timestep. -/
structure FGInv (g : FG) : Prop where
  targets_ne : g.targets ≠ []
  targets_lt : ∀ t ∈ g.targets, t < g.nextNodeId
  targets_share : ∀ t₁ ∈ g.targets, ∀ t₂ ∈ g.targets,
    g.nodeTimestepMap t₁ = g.nodeTimestepMap t₂
  source_lt : g.source < g.nextNodeId
  arcids_lt : ∀ a ∈ g.arcs, a < g.nextArcId
  arcsrc_lt : ∀ a ∈ g.arcs, g.arcSrc a < g.nextNodeId
  arctgt_lt : ∀ a ∈ g.arcs, g.arcTgt a < g.nextNodeId
  inter_sub : ∀ a ∈ g.intermediateArcs, a ∈ g.arcs
  inter_not_target : ∀ a ∈ g.intermediateArcs,
    g.arcSrc a ∉ g.targets ∧ g.arcTgt a ∉ g.targets
  inter_below : ∀ a ∈ g.intermediateArcs, ∀ t ∈ g.targets,
    g.nodeTimestepMap (g.arcSrc a) < g.nodeTimestepMap t ∧
    g.nodeTimestepMap (g.arcTgt a) < g.nodeTimestepMap t

/-- The freshly constructed graph satisfies the construction invariant. -/
theorem FGInv_newGraph : FGInv newGraph := by
  constructor <;> simp [newGraph]

/-- Characterisation of a successful addArc call. -/
theorem addArc_ok (g : FG) (s t : Nat) (costs : List ℚ) (g' : FG) (a : Nat)
    (h : addArc g s t costs = .ok (g', a)) :
    a = g.nextArcId ∧ g' = { g with
      nextArcId := g.nextArcId + 1
      arcs := g.arcs ++ [g.nextArcId]
      arcSrc := Function.update g.arcSrc g.nextArcId s
      arcTgt := Function.update g.arcTgt g.nextArcId t
      arcCosts := Function.update g.arcCosts g.nextArcId costs
      flowMap := Function.update g.flowMap g.nextArcId 0
      capacityMap := Function.update g.capacityMap g.nextArcId costs.length } := by
  unfold addArc at h
  split at h
  · rw [Except.ok.injEq, Prod.mk.injEq] at h
    exact ⟨h.2.symm, h.1.symm⟩
  · exact Except.noConfusion h

/-- addArc with endpoints below the node-allocation counter preserves the
construction invariant. -/
theorem addArc_FGInv (g : FG) (s t : Nat) (costs : List ℚ) (g' : FG) (a : Nat)
    (hs : s < g.nextNodeId) (ht : t < g.nextNodeId)
    (h : addArc g s t costs = .ok (g', a)) (hinv : FGInv g) : FGInv g' := by
  obtain ⟨-, hg⟩ := addArc_ok g s t costs g' a h
  subst hg
  refine ⟨hinv.targets_ne, hinv.targets_lt, hinv.targets_share, hinv.source_lt,
    ?_, ?_, ?_, ?_, ?_, ?_⟩
  · intro b hb
    dsimp only at hb ⊢
    rw [List.mem_append] at hb
    rcases hb with hb | hb
    · exact Nat.lt_succ_of_lt (hinv.arcids_lt b hb)
    · rw [List.mem_singleton] at hb
      subst hb
      exact Nat.lt_succ_self _
  · intro b hb
    dsimp only at hb ⊢
    rw [List.mem_append] at hb
    rcases hb with hb | hb
    · rw [Function.update_noteq (Nat.ne_of_lt (hinv.arcids_lt b hb))]
      exact hinv.arcsrc_lt b hb
    · rw [List.mem_singleton] at hb
      subst hb
      rw [Function.update_same]
      exact hs
  · intro b hb
    dsimp only at hb ⊢
    rw [List.mem_append] at hb
    rcases hb with hb | hb
    · rw [Function.update_noteq (Nat.ne_of_lt (hinv.arcids_lt b hb))]
      exact hinv.arctgt_lt b hb
    · rw [List.mem_singleton] at hb
      subst hb
      rw [Function.update_same]
      exact ht
  · intro b hb
    exact List.mem_append_left _ (hinv.inter_sub b hb)
  · intro b hb
    dsimp only at hb ⊢
    have hbm := hinv.inter_sub b hb
    rw [Function.update_noteq (Nat.ne_of_lt (hinv.arcids_lt b hbm)),
      Function.update_noteq (Nat.ne_of_lt (hinv.arcids_lt b hbm))]
    exact hinv.inter_not_target b hb
  · intro b hb t' ht'
    dsimp only at hb ht' ⊢
    have hbm := hinv.inter_sub b hb
    rw [Function.update_noteq (Nat.ne_of_lt (hinv.arcids_lt b hbm)),
      Function.update_noteq (Nat.ne_of_lt (hinv.arcids_lt b hbm))]
    exact hinv.inter_below b hb t' ht'

/-- Pointwise value of a double timestep update away from both updated
nodes. -/
theorem update2_noteq (f : Nat → Nat) (u v n : Nat) (x y : Nat)
    (hu : n ≠ u) (hv : n ≠ v) :
    Function.update (Function.update f u x) v y n = f n := by
  rw [Function.update_noteq hv, Function.update_noteq hu]

/-- Bind of a successful Except computation reduces to the continuation. -/
theorem exceptBind_ok {ε α β : Type} (x : α) (k : α → Except ε β) :
    (Except.ok x >>= k) = k x := rfl

/-- Pure in the Except monad is ok. -/
theorem exceptPure_ok {ε α : Type} (x : α) : (pure x : Except ε α) = .ok x := rfl

/-- addNode preserves the construction invariant and assigns the
timesteps 2t+1 and 2t+2 to the new entry and exit nodes. -/
theorem addNode_ok_inv (g : FG) (costs : List ℚ) (ts : Nat) (g' : FG) (f : FullNode)
    (hinv : FGInv g) (h : addNode g costs ts = .ok (g', f)) :
    FGInv g' ∧ g'.nodeTimestepMap f.u = ts * 2 + 1 ∧
      g'.nodeTimestepMap f.v = ts * 2 + 2 := by
  unfold addNode at h
  split at h
  case isFalse => exact Except.noConfusion h
  case isTrue hcost =>
    simp only [addArc, if_pos hcost, exceptBind_ok] at h
    cases htg : g.targets with
    | nil => exact absurd htg hinv.targets_ne
    | cons t0 rest =>
      have ht0mem : t0 ∈ g.targets := by rw [htg]; exact List.mem_cons_self t0 rest
      have ht0lt : t0 < g.nextNodeId := hinv.targets_lt t0 ht0mem
      have hmem_lt : ∀ t ∈ t0 :: rest, t < g.nextNodeId := by
        intro t ht
        exact hinv.targets_lt t (by rw [htg]; exact ht)
      have hu_nmem : g.nextNodeId ∉ t0 :: rest := by
        intro hmem
        have := hmem_lt _ hmem
        omega
      have hv_nmem : g.nextNodeId + 1 ∉ t0 :: rest := by
        intro hmem
        have := hmem_lt _ hmem
        omega
      rw [htg] at h
      dsimp only at h
      rw [update2_noteq g.nodeTimestepMap g.nextNodeId (g.nextNodeId + 1) t0
        (ts * 2 + 1) (ts * 2 + 2) (by omega) (by omega)] at h
      have harc_ne : ∀ b ∈ g.arcs, b ≠ g.nextArcId :=
        fun b hb => Nat.ne_of_lt (hinv.arcids_lt b hb)
      have hint_ne : ∀ b ∈ g.intermediateArcs, b ≠ g.nextArcId :=
        fun b hb => harc_ne b (hinv.inter_sub b hb)
      by_cases hC : ts * 2 + 2 ≥ g.nodeTimestepMap t0
      · rw [if_pos hC] at h
        rw [Except.ok.injEq, Prod.mk.injEq] at h
        obtain ⟨hg', hf⟩ := h
        subst hg'
        subst hf
        refine ⟨⟨?_, ?_, ?_, ?_, ?_, ?_, ?_, ?_, ?_, ?_⟩, ?_, ?_⟩
        · exact List.cons_ne_nil t0 rest
        · intro t ht
          dsimp only at ht ⊢
          have := hmem_lt t ht
          omega
        · intro t₁ ht₁ t₂ ht₂
          dsimp only at ht₁ ht₂ ⊢
          rw [if_pos ht₁, if_pos ht₂]
        · dsimp only
          have := hinv.source_lt
          omega
        · intro b hb
          dsimp only at hb ⊢
          rw [List.mem_append] at hb
          rcases hb with hb | hb
          · exact Nat.lt_succ_of_lt (hinv.arcids_lt b hb)
          · rw [List.mem_singleton] at hb
            subst hb
            exact Nat.lt_succ_self _
        · intro b hb
          dsimp only at hb ⊢
          rw [List.mem_append] at hb
          rcases hb with hb | hb
          · rw [Function.update_noteq (harc_ne b hb)]
            have := hinv.arcsrc_lt b hb
            omega
          · rw [List.mem_singleton] at hb
            subst hb
            rw [Function.update_same]
            omega
        · intro b hb
          dsimp only at hb ⊢
          rw [List.mem_append] at hb
          rcases hb with hb | hb
          · rw [Function.update_noteq (harc_ne b hb)]
            have := hinv.arctgt_lt b hb
            omega
          · rw [List.mem_singleton] at hb
            subst hb
            rw [Function.update_same]
            omega
        · intro b hb
          dsimp only at hb ⊢
          rw [List.mem_append] at hb ⊢
          rcases hb with hb | hb
          · exact Or.inl (hinv.inter_sub b hb)
          · exact Or.inr hb
        · intro b hb
          dsimp only at hb ⊢
          rw [List.mem_append] at hb
          rcases hb with hb | hb
          · rw [Function.update_noteq (hint_ne b hb),
              Function.update_noteq (hint_ne b hb)]
            have hnt := hinv.inter_not_target b hb
            rw [htg] at hnt
            exact hnt
          · rw [List.mem_singleton] at hb
            subst hb
            rw [Function.update_same, Function.update_same]
            exact ⟨hu_nmem, hv_nmem⟩
        · intro b hb t ht
          dsimp only at hb ht ⊢
          rw [List.mem_append] at hb
          rw [if_pos ht]
          rcases hb with hb | hb
          · have hnt := hinv.inter_not_target b hb
            rw [htg] at hnt
            have hslt := hinv.arcsrc_lt b (hinv.inter_sub b hb)
            have htlt := hinv.arctgt_lt b (hinv.inter_sub b hb)
            have hbelow := hinv.inter_below b hb t0 ht0mem
            rw [Function.update_noteq (hint_ne b hb),
              Function.update_noteq (hint_ne b hb),
              if_neg hnt.1, if_neg hnt.2,
              update2_noteq g.nodeTimestepMap _ _ _ _ _
                (by omega) (by omega),
              update2_noteq g.nodeTimestepMap _ _ _ _ _
                (by omega) (by omega)]
            omega
          · rw [List.mem_singleton] at hb
            subst hb
            rw [Function.update_same, Function.update_same,
              if_neg hu_nmem, if_neg hv_nmem,
              Function.update_noteq (by omega), Function.update_same,
              Function.update_same]
            omega
        · dsimp only
          rw [if_neg hu_nmem, Function.update_noteq (by omega),
            Function.update_same]
        · dsimp only
          rw [if_neg hv_nmem, Function.update_same]
      · rw [if_neg hC] at h
        rw [Except.ok.injEq, Prod.mk.injEq] at h
        obtain ⟨hg', hf⟩ := h
        subst hg'
        subst hf
        have hshare : ∀ t ∈ t0 :: rest,
            g.nodeTimestepMap t = g.nodeTimestepMap t0 := by
          intro t ht
          exact hinv.targets_share t (by rw [htg]; exact ht) t0 ht0mem
        refine ⟨⟨?_, ?_, ?_, ?_, ?_, ?_, ?_, ?_, ?_, ?_⟩, ?_, ?_⟩
        · exact List.cons_ne_nil t0 rest
        · intro t ht
          dsimp only at ht ⊢
          have := hmem_lt t ht
          omega
        · intro t₁ ht₁ t₂ ht₂
          dsimp only at ht₁ ht₂ ⊢
          rw [update2_noteq g.nodeTimestepMap _ _ _ _ _
              (Nat.ne_of_lt (hmem_lt t₁ ht₁)) (by have := hmem_lt t₁ ht₁; omega),
            update2_noteq g.nodeTimestepMap _ _ _ _ _
              (Nat.ne_of_lt (hmem_lt t₂ ht₂)) (by have := hmem_lt t₂ ht₂; omega)]
          rw [hshare t₁ ht₁, hshare t₂ ht₂]
        · dsimp only
          have := hinv.source_lt
          omega
        · intro b hb
          dsimp only at hb ⊢
          rw [List.mem_append] at hb
          rcases hb with hb | hb
          · exact Nat.lt_succ_of_lt (hinv.arcids_lt b hb)
          · rw [List.mem_singleton] at hb
            subst hb
            exact Nat.lt_succ_self _
        · intro b hb
          dsimp only at hb ⊢
          rw [List.mem_append] at hb
          rcases hb with hb | hb
          · rw [Function.update_noteq (harc_ne b hb)]
            have := hinv.arcsrc_lt b hb
            omega
          · rw [List.mem_singleton] at hb
            subst hb
            rw [Function.update_same]
            omega
        · intro b hb
          dsimp only at hb ⊢
          rw [List.mem_append] at hb
          rcases hb with hb | hb
          · rw [Function.update_noteq (harc_ne b hb)]
            have := hinv.arctgt_lt b hb
            omega
          · rw [List.mem_singleton] at hb
            subst hb
            rw [Function.update_same]
            omega
        · intro b hb
          dsimp only at hb ⊢
          rw [List.mem_append] at hb ⊢
          rcases hb with hb | hb
          · exact Or.inl (hinv.inter_sub b hb)
          · exact Or.inr hb
        · intro b hb
          dsimp only at hb ⊢
          rw [List.mem_append] at hb
          rcases hb with hb | hb
          · rw [Function.update_noteq (hint_ne b hb),
              Function.update_noteq (hint_ne b hb)]
            have hnt := hinv.inter_not_target b hb
            rw [htg] at hnt
            exact hnt
          · rw [List.mem_singleton] at hb
            subst hb
            rw [Function.update_same, Function.update_same]
            exact ⟨hu_nmem, hv_nmem⟩
        · intro b hb t ht
          dsimp only at hb ht ⊢
          rw [List.mem_append] at hb
          have httlt := hmem_lt t ht
          rw [update2_noteq g.nodeTimestepMap _ _ _ _ _
            (Nat.ne_of_lt httlt) (by omega)]
          rcases hb with hb | hb
          · have hslt := hinv.arcsrc_lt b (hinv.inter_sub b hb)
            have htlt := hinv.arctgt_lt b (hinv.inter_sub b hb)
            have hbelow := hinv.inter_below b hb t (by rw [htg]; exact ht)
            rw [Function.update_noteq (hint_ne b hb),
              Function.update_noteq (hint_ne b hb),
              update2_noteq g.nodeTimestepMap _ _ _ _ _
                (by omega) (by omega),
              update2_noteq g.nodeTimestepMap _ _ _ _ _
                (by omega) (by omega)]
            exact hbelow
          · rw [List.mem_singleton] at hb
            subst hb
            have hC' : g.nodeTimestepMap t0 > ts * 2 + 2 := by omega
            have := hshare t ht
            rw [Function.update_same, Function.update_same,
              Function.update_noteq (by omega), Function.update_same,
              Function.update_same]
            omega
        · dsimp only
          rw [Function.update_noteq (by omega), Function.update_same]
        · dsimp only
          rw [Function.update_same]

/-- Inversion of a successful Except bind. -/
theorem exceptBind_ok_inv {ε α β : Type} {x : Except ε α} {k : α → Except ε β} {b : β}
    (h : (x >>= k) = .ok b) : ∃ a, x = .ok a ∧ k a = .ok b := by
  cases x with
  | error e => exact Except.noConfusion h
  | ok a => exact ⟨a, rfl, h⟩

/-- Folding an invariant-preserving Except step over a list preserves the
invariant. -/
theorem foldlM_fg_preserve {σ α : Type} (f : σ → α → Except String σ) (P : σ → Prop) :
    ∀ l : List α, (∀ s x, x ∈ l → ∀ s', f s x = .ok s' → P s → P s') →
    ∀ s s', List.foldlM f s l = .ok s' → P s → P s' := by
  intro l
  induction l with
  | nil =>
    intro _ s s' h hP
    rw [List.foldlM_nil, exceptPure_ok, Except.ok.injEq] at h
    rw [← h]
    exact hP
  | cons x xs ih =>
    intro hstep s s' h hP
    rw [List.foldlM_cons] at h
    obtain ⟨s1, hx, h⟩ := exceptBind_ok_inv h
    exact ih (fun s y hy => hstep s y (List.mem_cons_of_mem _ hy)) s1 s' h
      (hstep s x (List.mem_cons_self _ _) s1 hx hP)

/-- allowMitosis on a parent exit node with a valid identifier preserves
the construction invariant. -/
theorem allowMitosis_FGInv (g : FG) (parent : FullNode) (c : ℚ) (g' : FG) (a : Nat)
    (hv : parent.v < g.nextNodeId)
    (h : allowMitosis g parent c = .ok (g', a)) (hinv : FGInv g) : FGInv g' := by
  have hinv1 : FGInv { g with
      nextNodeId := g.nextNodeId + 1
      nodeTimestepMap :=
        Function.update g.nodeTimestepMap g.nextNodeId (g.nodeTimestepMap parent.v) } := by
    have hup : ∀ n, n < g.nextNodeId →
        Function.update g.nodeTimestepMap g.nextNodeId (g.nodeTimestepMap parent.v) n =
          g.nodeTimestepMap n :=
      fun n hn => Function.update_noteq (Nat.ne_of_lt hn) _ _
    refine ⟨hinv.targets_ne, ?_, ?_, ?_, hinv.arcids_lt, ?_, ?_, hinv.inter_sub, ?_, ?_⟩
    · intro t ht
      dsimp only
      have := hinv.targets_lt t ht
      omega
    · intro t₁ ht₁ t₂ ht₂
      dsimp only
      rw [hup t₁ (hinv.targets_lt t₁ ht₁), hup t₂ (hinv.targets_lt t₂ ht₂)]
      exact hinv.targets_share t₁ ht₁ t₂ ht₂
    · dsimp only
      have := hinv.source_lt
      omega
    · intro b hb
      dsimp only
      have := hinv.arcsrc_lt b hb
      omega
    · intro b hb
      dsimp only
      have := hinv.arctgt_lt b hb
      omega
    · exact hinv.inter_not_target
    · intro b hb t ht
      dsimp only
      rw [hup _ (hinv.arcsrc_lt b (hinv.inter_sub b hb)),
        hup _ (hinv.arctgt_lt b (hinv.inter_sub b hb)),
        hup t (hinv.targets_lt t ht)]
      exact hinv.inter_below b hb t ht
  unfold allowMitosis at h
  dsimp only at h
  obtain ⟨⟨g2, a2⟩, haa, h⟩ := exceptBind_ok_inv h
  obtain ⟨ha2, hg2⟩ := addArc_ok _ _ _ _ _ _ haa
  dsimp only at h
  obtain ⟨g3, hfold, h⟩ := exceptBind_ok_inv h
  rw [Except.ok.injEq, Prod.mk.injEq] at h
  obtain ⟨hg', -⟩ := h
  have hinv2 : FGInv g2 ∧ g2.nextNodeId = g.nextNodeId + 1 := by
    subst hg2
    constructor
    · exact addArc_FGInv _ _ _ _ _ _ (by dsimp only; have := hinv.source_lt; omega)
        (by dsimp only; omega) haa hinv1
    · rfl
  have hinv3 : FGInv g3 ∧ g3.nextNodeId = g.nextNodeId + 1 := by
    refine foldlM_fg_preserve _ (fun x => FGInv x ∧ x.nextNodeId = g.nextNodeId + 1)
      (outArcIds g parent.v) ?_ g2 g3 hfold hinv2
    intro s oa hoa s' hstep hP
    obtain ⟨hPs, hPn⟩ := hP
    revert hstep
    split
    · intro hstep
      cases haoa : addArc s g.nextNodeId (g.arcTgt oa) [(g.arcCosts oa).headI] with
      | error e => rw [haoa] at hstep; exact Except.noConfusion hstep
      | ok p =>
        rw [haoa] at hstep
        have hp1 : p.1 = s' := by
          have h2 : Except.ok (ε := String) p.1 = .ok s' := hstep
          exact Except.ok.inj h2
        have hoaarcs : oa ∈ g.arcs := List.mem_of_mem_filter hoa
        have htgt : g.arcTgt oa < g.nextNodeId := hinv.arctgt_lt oa hoaarcs
        have haoa2 : addArc s g.nextNodeId (g.arcTgt oa) [(g.arcCosts oa).headI] =
            .ok (p.1, p.2) := by rw [haoa]
        have hfg : FGInv p.1 :=
          addArc_FGInv s g.nextNodeId (g.arcTgt oa) [(g.arcCosts oa).headI] p.1 p.2
            (by omega) (by omega) haoa2 hPs
        obtain ⟨hpa, hpg⟩ :=
          addArc_ok s g.nextNodeId (g.arcTgt oa) [(g.arcCosts oa).headI] p.1 p.2 haoa2
        constructor
        · rw [← hp1]
          exact hfg
        · rw [← hp1, hpg]
          exact hPn
    · intro hstep
      rw [exceptPure_ok, Except.ok.injEq] at hstep
      rw [← hstep]
      exact ⟨hPs, hPn⟩
  rw [← hg']
  exact ⟨hinv3.1.targets_ne, hinv3.1.targets_lt, hinv3.1.targets_share,
    hinv3.1.source_lt, hinv3.1.arcids_lt, hinv3.1.arcsrc_lt, hinv3.1.arctgt_lt,
    hinv3.1.inter_sub, hinv3.1.inter_not_target, hinv3.1.inter_below⟩

/-- States reachable through the FlowGraph construction API, starting
from the constructor and applying addNode, addArc (with allocated
endpoints) and allowMitosis (on an allocated parent exit node). -/
inductive Reachable : FG → Prop where
  | base : Reachable newGraph
  | addNodeStep {g g' : FG} {costs : List ℚ} {t : Nat} {f : FullNode} :
      Reachable g → addNode g costs t = .ok (g', f) → Reachable g'
  | addArcStep {g g' : FG} {s t : Nat} {costs : List ℚ} {a : Nat} :
      Reachable g → s < g.nextNodeId → t < g.nextNodeId →
      addArc g s t costs = .ok (g', a) → Reachable g'
  | allowMitosisStep {g g' : FG} {parent : FullNode} {c : ℚ} {a : Nat} :
      Reachable g → parent.v < g.nextNodeId →
      allowMitosis g parent c = .ok (g', a) → Reachable g'

/-- Every reachable FlowGraph state satisfies the construction
invariant. -/
theorem FGInv_of_reachable (g : FG) (h : Reachable g) : FGInv g := by
  induction h with
  | base => exact FGInv_newGraph
  | addNodeStep hr hok ih => exact (addNode_ok_inv _ _ _ _ _ ih hok).1
  | addArcStep hr hs ht hok ih => exact addArc_FGInv _ _ _ _ _ _ hs ht hok ih
  | allowMitosisStep hr hv hok ih => exact allowMitosis_FGInv _ _ _ _ _ hv hok ih

/-- C8: addNode assigns timestep 2t+1 to the entry node and 2t+2 to the
exit node of the new detection, and after every addNode call on a
reachable state all target nodes share one timestep that is strictly
greater than the timestep of every detection node added so far (the
endpoints of the intermediate arcs). -/
theorem addNode_timestep_invariant (g : FG) (costs : List ℚ) (t : Nat) (g' : FG)
    (f : FullNode) (hr : Reachable g) (h : addNode g costs t = .ok (g', f)) :
    g'.nodeTimestepMap f.u = 2 * t + 1 ∧ g'.nodeTimestepMap f.v = 2 * t + 2 ∧
    (∀ t₁ ∈ g'.targets, ∀ t₂ ∈ g'.targets,
      g'.nodeTimestepMap t₁ = g'.nodeTimestepMap t₂) ∧
    (∀ b ∈ g'.intermediateArcs, ∀ tt ∈ g'.targets,
      g'.nodeTimestepMap (g'.arcSrc b) < g'.nodeTimestepMap tt ∧
      g'.nodeTimestepMap (g'.arcTgt b) < g'.nodeTimestepMap tt) := by
  obtain ⟨hinv', hu, hv⟩ := addNode_ok_inv g costs t g' f (FGInv_of_reachable g hr) h
  refine ⟨?_, ?_, hinv'.targets_share, hinv'.inter_below⟩
  · rw [hu]; ring
  · rw [hv]; ring

/-- C8 witness: the first detection added to a fresh graph receives
timesteps 1 and 2. -/
theorem addNode_timestep_invariant_witness :
    g5.nodeTimestepMap f5.u = 2 * 0 + 1 ∧ g5.nodeTimestepMap f5.v = 2 * 0 + 2 :=
  ⟨(addNode_timestep_invariant newGraph [-1] 0 g5 f5 Reachable.base rfl).1,
   (addNode_timestep_invariant newGraph [-1] 0 g5 f5 Reachable.base rfl).2.1⟩

/-! ## C1: division tokens placed at residual-graph initialisation -/

/-- Inversion of a successful updateArc call: the flow was within bounds
and the result refreshes both residual arcs. -/
theorem updateArc_ok_elim (g : FG) (rg : RG) (a : Nat) (rg' : RG)
    (h : updateArc g rg a = .ok rg') :
    0 ≤ g.flowMap a ∧ g.flowMap a ≤ (g.capacityMap a : Int) ∧
    rg' = rgUpdateArc
      (rgUpdateArc rg a .forward (getArcCost (g.arcCosts a) (g.flowMap a))
        ((g.capacityMap a : Int) - g.flowMap a))
      a .backward ((getArcCost (g.arcCosts a) (g.flowMap a - 1)).neg) (g.flowMap a) := by
  unfold updateArc at h
  dsimp only at h
  split at h
  case isTrue => exact Except.noConfusion h
  case isFalse h1 =>
    split at h
    case isTrue => exact Except.noConfusion h
    case isFalse h2 =>
      rw [Except.ok.injEq] at h
      exact ⟨not_lt.mp h1, not_lt.mp h2, h.symm⟩

/-- The token-pass step never removes a provided or forbidden token. -/
theorem tokenPassStep_mono (g : FG) (rg : RG) (a : Nat) (rg' : RG)
    (h : tokenPassStep g rg a = .ok rg') :
    ∀ b : Nat, ∀ dd : Direction, ∀ tok : Nat,
      (tok ∈ rg.providedTokens b dd → tok ∈ rg'.providedTokens b dd) ∧
      (tok ∈ rg.forbiddenTokens b dd → tok ∈ rg'.forbiddenTokens b dd) := by
  intro b dd tok
  unfold tokenPassStep at h
  obtain ⟨rg1, hup, h⟩ := exceptBind_ok_inv h
  obtain ⟨-, -, hrg1⟩ := updateArc_ok_elim g rg a rg1 hup
  subst hrg1
  revert h
  cases mapFind? g.duplicateToParentMap (g.arcTgt a) with
  | some parent =>
    intro h
    dsimp only at h
    rw [exceptPure_ok, Except.ok.injEq] at h
    rw [← h]
    dsimp only [addProvidedToken, enableArc, rgUpdateArc, updRes]
    constructor
    · intro hmem
      split
      · rename_i hcond
        obtain ⟨hb, hd⟩ := hcond
        subst hb
        subst hd
        exact List.mem_append_left _ hmem
      · exact hmem
    · exact id
  | none =>
    cases hm2 : mapFind? g.parentToDuplicateMap (g.arcTgt a) with
    | some q =>
      intro h
      dsimp only at h
      rw [exceptPure_ok, Except.ok.injEq] at h
      rw [← h]
      dsimp only [addForbiddenToken, enableArc, rgUpdateArc, updRes]
      constructor
      · exact id
      · intro hmem
        split
        · rename_i hcond
          obtain ⟨hb, hd⟩ := hcond
          subst hb
          subst hd
          exact List.mem_append_left _ hmem
        · exact hmem
    | none =>
      intro h
      dsimp only at h
      rw [exceptPure_ok, Except.ok.injEq] at h
      rw [← h]
      exact ⟨id, id⟩

/-- The token-pass step places the division tokens for its own arc: a
provided token (the parent id) on the forward residual arc when the
target is a duplicate, and a forbidden token (the target id) on the
backward residual arc when the target is a parent that has a
duplicate. -/
theorem tokenPassStep_sets (g : FG) (rg : RG) (a : Nat) (rg' : RG)
    (h : tokenPassStep g rg a = .ok rg') :
    (∀ p : Nat, mapFind? g.duplicateToParentMap (g.arcTgt a) = some p →
      p ∈ rg'.providedTokens a .forward) ∧
    (mapFind? g.duplicateToParentMap (g.arcTgt a) = none →
      ∀ q : Nat, mapFind? g.parentToDuplicateMap (g.arcTgt a) = some q →
      g.arcTgt a ∈ rg'.forbiddenTokens a .backward) := by
  unfold tokenPassStep at h
  obtain ⟨rg1, hup, h⟩ := exceptBind_ok_inv h
  constructor
  · intro p hp
    rw [hp] at h
    dsimp only at h
    rw [exceptPure_ok, Except.ok.injEq] at h
    rw [← h]
    dsimp only [addProvidedToken, updRes]
    rw [if_pos ⟨rfl, rfl⟩]
    exact List.mem_append_right _ (List.mem_singleton_self p)
  · intro hnone q hq
    rw [hnone, hq] at h
    dsimp only at h
    rw [exceptPure_ok, Except.ok.injEq] at h
    rw [← h]
    dsimp only [addForbiddenToken, updRes]
    rw [if_pos ⟨rfl, rfl⟩]
    exact List.mem_append_right _ (List.mem_singleton_self _)

/-- If some element of the list establishes Q and every step preserves
Q, a successful fold over the list establishes Q. -/
theorem foldlM_mem {σ α : Type} (f : σ → α → Except String σ) (Q : σ → Prop)
    (hmono : ∀ s x s', f s x = .ok s' → Q s → Q s')
    (x : α) (hx : ∀ s s', f s x = .ok s' → Q s') :
    ∀ l : List α, x ∈ l → ∀ s s', List.foldlM f s l = .ok s' → Q s' := by
  intro l
  induction l with
  | nil => intro hmem; exact absurd hmem (List.not_mem_nil x)
  | cons y ys ih =>
    intro hmem s s' h
    rw [List.foldlM_cons] at h
    obtain ⟨s1, hy, h⟩ := exceptBind_ok_inv h
    rcases List.mem_cons.mp hmem with heq | hmem'
    · refine foldlM_fg_preserve f Q ys (fun s2 b _ s3 h3 => hmono s2 b s3 h3) s1 s' h ?_
      exact hx s s1 (by rw [heq]; exact hy)
    · exact ih hmem' s1 s' h

/-- C1 amended: at residual-graph initialisation, for every parent exit
node v with division duplicate d, the forward residual arc of every
in-arc of d provides token id(v), and the backward residual arc of every
in-arc of v forbids token id(v). -/
theorem initResidualTokens_division_tokens (g : FG) (rg0 rg' : RG) (v d : Nat)
    (hpd : mapFind? g.parentToDuplicateMap v = some d)
    (hdp : mapFind? g.duplicateToParentMap d = some v)
    (hvnd : mapFind? g.duplicateToParentMap v = none)
    (hok : initResidualGraphTokenPass g rg0 = .ok rg')
    (a : Nat) (ha : a ∈ g.arcs) :
    (g.arcTgt a = d → v ∈ rg'.providedTokens a .forward) ∧
    (g.arcTgt a = v → v ∈ rg'.forbiddenTokens a .backward) := by
  constructor
  · intro htgt
    refine foldlM_mem (tokenPassStep g) (fun rg => v ∈ rg.providedTokens a .forward)
      (fun s x s' hstep => (tokenPassStep_mono g s x s' hstep a .forward v).1)
      a ?_ g.arcs ha rg0 rg' hok
    intro s s' hstep
    exact (tokenPassStep_sets g s a s' hstep).1 v (by rw [htgt]; exact hdp)
  · intro htgt
    refine foldlM_mem (tokenPassStep g) (fun rg => v ∈ rg.forbiddenTokens a .backward)
      (fun s x s' hstep => (tokenPassStep_mono g s x s' hstep a .backward v).2)
      a ?_ g.arcs ha rg0 rg' hok
    intro s s' hstep
    have hset := (tokenPassStep_sets g s a s' hstep).2 (by rw [htgt]; exact hvnd)
      d (by rw [htgt]; exact hpd)
    rw [htgt] at hset
    exact hset

/-- The division example: detections A (nodes 2, 3; arc 0) and B
(nodes 4, 5; arc 1), transition arc 2 from 3 to 4, and mitosis of A
adding duplicate 6, division arc 3 from the source to 6 and mirrored
arc 4 from 6 to 4. -/
def builtM : Except String FG := do
  let (g1, A) ← addNode newGraph [-1] 0
  let (g2, B) ← addNode g1 [-1] 1
  let (g3, _) ← addArcF g2 A B [0]
  let (g4, _) ← allowMitosis g3 A (-2)
  pure g4

/-- The concrete division graph. -/
def gM : FG :=
  match builtM with
  | .ok g => g
  | .error _ => newGraph

/-- C1 counterexample: in the concrete division graph, arc 2 is an
out-arc of the parent exit node 3 leading to a non-target node, yet
after the token pass its backward residual arc carries no forbidden
token at all; the forbidden token id 3 sits on the backward residual
arc of the in-arc 0 of node 3 instead, and the forward residual arc of
the division in-arc 3 of duplicate 6 provides token 3. -/
theorem initResidualTokens_outarc_cex :
    gM.parentToDuplicateMap = [(3, 6)] ∧
    gM.arcSrc 2 = 3 ∧ gM.arcTgt 2 = 4 ∧ (2 : Nat) ∈ gM.arcs ∧
    isTarget gM 4 = false ∧
    (initResidualGraphTokenPass gM emptyRG).map
      (fun rg => (rg.forbiddenTokens 2 Direction.backward,
                  rg.forbiddenTokens 0 Direction.backward,
                  rg.providedTokens 3 Direction.forward)) =
    .ok ([], [3], [3]) :=
  ⟨rfl, rfl, rfl, by decide, rfl, rfl⟩

/-- The residual token state of the concrete division graph. -/
def rgM : RG :=
  match initResidualGraphTokenPass gM emptyRG with
  | .ok rg => rg
  | .error _ => emptyRG

/-- C1 witness for the amended statement: in the concrete division
graph, the division in-arc 3 of duplicate 6 provides token 3 on its
forward residual arc, and the in-arc 0 of parent 3 forbids token 3 on
its backward residual arc. -/
theorem initResidualTokens_division_tokens_witness :
    3 ∈ rgM.providedTokens 3 Direction.forward ∧
    3 ∈ rgM.forbiddenTokens 0 Direction.backward :=
  ⟨(initResidualTokens_division_tokens gM emptyRG rgM 3 6 rfl rfl rfl rfl 3
      (by decide)).1 rfl,
   (initResidualTokens_division_tokens gM emptyRG rgM 3 6 rfl rfl rfl rfl 0
      (by decide)).2 rfl⟩

/-! ## C2: coupling between a parent's arcs and its duplicate's arcs -/

/-- The coupled arc pairs of the graph: (av, ad) such that av leaves a
parent exit node v with duplicate d, ad leaves d, and both point at the
same target. -/
def couplingPairs (g : FG) : List (Nat × Nat) :=
  g.arcs.flatMap (fun av =>
    match mapFind? g.parentToDuplicateMap (g.arcSrc av) with
    | some d =>
      (g.arcs.filter (fun ad => g.arcSrc ad == d && g.arcTgt ad == g.arcTgt av)).map
        (fun ad => (av, ad))
    | none => [])

/-- The division-coupling invariant as claimed: the duplicate arc's flow
equals min(parent arc's flow, 1) on every coupled pair. -/
def strongCoupling (g : FG) : Prop :=
  ∀ p ∈ couplingPairs g, g.flowMap p.2 = min (g.flowMap p.1) 1

/-- The weaker division-coupling invariant of §8: the duplicate arc
carries at most one unit and never more than the parent arc. -/
def weakCoupling (g : FG) : Prop :=
  ∀ p ∈ couplingPairs g, g.flowMap p.2 ≤ 1 ∧ g.flowMap p.2 ≤ g.flowMap p.1

instance (g : FG) : Decidable (strongCoupling g) :=
  inferInstanceAs (Decidable (∀ p ∈ couplingPairs g, g.flowMap p.2 = min (g.flowMap p.1) 1))

instance (g : FG) : Decidable (weakCoupling g) :=
  inferInstanceAs
    (Decidable (∀ p ∈ couplingPairs g, g.flowMap p.2 ≤ 1 ∧ g.flowMap p.2 ≤ g.flowMap p.1))

/-- Membership in couplingPairs, unfolded. -/
theorem mem_couplingPairs (g : FG) (av ad : Nat) :
    (av, ad) ∈ couplingPairs g ↔
      av ∈ g.arcs ∧ ad ∈ g.arcs ∧
      mapFind? g.parentToDuplicateMap (g.arcSrc av) = some (g.arcSrc ad) ∧
      g.arcTgt ad = g.arcTgt av := by
  unfold couplingPairs
  rw [List.mem_flatMap]
  constructor
  · rintro ⟨b, hb, hmem⟩
    revert hmem
    cases hm : mapFind? g.parentToDuplicateMap (g.arcSrc b) with
    | none => intro hmem; exact absurd hmem (List.not_mem_nil _)
    | some d =>
      intro hmem
      rw [List.mem_map] at hmem
      obtain ⟨c, hc, heq⟩ := hmem
      rw [List.mem_filter] at hc
      obtain ⟨hcarcs, hcond⟩ := hc
      simp only [Bool.and_eq_true, beq_iff_eq] at hcond
      rw [Prod.mk.injEq] at heq
      obtain ⟨hb1, hc1⟩ := heq
      subst hb1
      subst hc1
      exact ⟨hb, hcarcs, by rw [hm, hcond.1], hcond.2⟩
  · rintro ⟨hav, had, hmap, htgt⟩
    refine ⟨av, hav, ?_⟩
    rw [hmap]
    rw [List.mem_map]
    refine ⟨ad, ?_, rfl⟩
    rw [List.mem_filter]
    exact ⟨had, by simp [htgt]⟩

/-- Well-formedness of the division bookkeeping: the two maps are
mutually inverse, no node is both a parent key and a duplicate key,
arcs out of a duplicate have capacity one, and no two distinct arcs
share both endpoints. -/
structure WF (g : FG) : Prop where
  coherent1 : ∀ pr ∈ g.parentToDuplicateMap,
    mapFind? g.duplicateToParentMap pr.2 = some pr.1
  coherent2 : ∀ pr ∈ g.duplicateToParentMap,
    mapFind? g.parentToDuplicateMap pr.2 = some pr.1
  disjoint1 : ∀ pr ∈ g.parentToDuplicateMap,
    mapFind? g.duplicateToParentMap pr.1 = none
  dupCapOne : ∀ a ∈ g.arcs,
    mapFind? g.duplicateToParentMap (g.arcSrc a) = none ∨ g.capacityMap a = 1
  noParallel : ∀ a ∈ g.arcs, ∀ b ∈ g.arcs,
    g.arcSrc a = g.arcSrc b → g.arcTgt a = g.arcTgt b → a = b

/-- A successful map lookup exhibits a list member. -/
theorem mapFind?_mem (m : List (Nat × Nat)) (k v : Nat) (h : mapFind? m k = some v) :
    (k, v) ∈ m := by
  unfold mapFind? at h
  cases hf : m.find? (fun p => p.1 == k) with
  | none => rw [hf] at h; exact Option.noConfusion h
  | some pr =>
    rw [hf] at h
    have h2 : some pr.2 = some v := h
    have hv := Option.some.inj h2
    have hmem := List.mem_of_find?_eq_some hf
    have hp := List.find?_some hf
    rw [beq_iff_eq] at hp
    have hpr : pr = (k, v) := by
      cases pr
      dsimp only at hp hv
      rw [hp, hv]
    rw [← hpr]
    exact hmem

/-- Parent lookup determines the reverse duplicate lookup. -/
theorem wf_d2p_of_p2d (g : FG) (hwf : WF g) (v d : Nat)
    (h : mapFind? g.parentToDuplicateMap v = some d) :
    mapFind? g.duplicateToParentMap d = some v :=
  hwf.coherent1 (v, d) (mapFind?_mem _ _ _ h)

/-- Duplicate lookup determines the reverse parent lookup. -/
theorem wf_p2d_of_d2p (g : FG) (hwf : WF g) (d v : Nat)
    (h : mapFind? g.duplicateToParentMap d = some v) :
    mapFind? g.parentToDuplicateMap v = some d :=
  hwf.coherent2 (d, v) (mapFind?_mem _ _ _ h)

/-- A parent key is not a duplicate key. -/
theorem wf_no_d2p (g : FG) (hwf : WF g) (n d : Nat)
    (h : mapFind? g.parentToDuplicateMap n = some d) :
    mapFind? g.duplicateToParentMap n = none :=
  hwf.disjoint1 (n, d) (mapFind?_mem _ _ _ h)

/-- A duplicate key is not a parent key. -/
theorem wf_no_p2d (g : FG) (hwf : WF g) (n v : Nat)
    (h : mapFind? g.duplicateToParentMap n = some v) :
    mapFind? g.parentToDuplicateMap n = none := by
  cases hx : mapFind? g.parentToDuplicateMap n with
  | none => rfl
  | some y =>
    rw [wf_no_d2p g hwf n y hx] at h
    exact Option.noConfusion h

/-- Arcs out of a duplicate have capacity one. -/
theorem wf_cap_one (g : FG) (hwf : WF g) (a v : Nat) (ha : a ∈ g.arcs)
    (h : mapFind? g.duplicateToParentMap (g.arcSrc a) = some v) :
    g.capacityMap a = 1 := by
  rcases hwf.dupCapOne a ha with hnone | hcap
  · rw [hnone] at h
    exact Option.noConfusion h
  · exact hcap

/-- A successful find over the out-arcs of n with target w returns an
arc of the graph from n to w. -/
theorem findOutArc_some (g : FG) (n w oa : Nat)
    (h : (outArcIds g n).find? (fun b => g.arcTgt b == w) = some oa) :
    oa ∈ g.arcs ∧ g.arcSrc oa = n ∧ g.arcTgt oa = w := by
  have hmem := List.mem_of_find?_eq_some h
  have hp := List.find?_some h
  rw [beq_iff_eq] at hp
  unfold outArcIds at hmem
  rw [List.mem_filter] at hmem
  obtain ⟨ha, hs⟩ := hmem
  rw [beq_iff_eq] at hs
  exact ⟨ha, hs, hp⟩

/-- A failed find over the out-arcs of n with target w means no arc of
the graph goes from n to w. -/
theorem findOutArc_none (g : FG) (n w : Nat)
    (h : (outArcIds g n).find? (fun b => g.arcTgt b == w) = none) :
    ∀ b ∈ g.arcs, g.arcSrc b = n → g.arcTgt b ≠ w := by
  intro b hb hs hw
  have hmem : b ∈ outArcIds g n := by
    unfold outArcIds
    rw [List.mem_filter]
    exact ⟨hb, by simp [hs]⟩
  have := List.find?_eq_none.mp h b hmem
  simp [hw] at this

/-- setFlow only changes the flow map. -/
theorem flowMap_setFlow (g : FG) (b : Nat) (x : Int) :
    (setFlow g b x).flowMap = Function.update g.flowMap b x := rfl

/-- setFlow keeps the arc sources. -/
theorem arcSrc_setFlow (g : FG) (b : Nat) (x : Int) :
    (setFlow g b x).arcSrc = g.arcSrc := rfl

/-- setFlow keeps the arc targets. -/
theorem arcTgt_setFlow (g : FG) (b : Nat) (x : Int) :
    (setFlow g b x).arcTgt = g.arcTgt := rfl

/-- setFlow keeps the capacities. -/
theorem capacityMap_setFlow (g : FG) (b : Nat) (x : Int) :
    (setFlow g b x).capacityMap = g.capacityMap := rfl

/-- setFlow keeps the parent map. -/
theorem parentToDuplicateMap_setFlow (g : FG) (b : Nat) (x : Int) :
    (setFlow g b x).parentToDuplicateMap = g.parentToDuplicateMap := rfl

/-- setFlow keeps the duplicate map. -/
theorem duplicateToParentMap_setFlow (g : FG) (b : Nat) (x : Int) :
    (setFlow g b x).duplicateToParentMap = g.duplicateToParentMap := rfl

/-- setFlow keeps the out-arc lists. -/
theorem outArcIds_setFlow (g : FG) (b : Nat) (x : Int) (n : Nat) :
    outArcIds (setFlow g b x) n = outArcIds g n := rfl

/-- setFlow keeps the coupled pairs. -/
theorem couplingPairs_setFlow (g : FG) (b : Nat) (x : Int) :
    couplingPairs (setFlow g b x) = couplingPairs g := rfl

/-- One augmentation step preserves the weak coupling invariant, and
does not change the graph structure. -/
theorem augmentStep_weak (g : FG) (rg : RG) (a : Nat) (d : Int) (g' : FG) (rg' : RG)
    (hwf : WF g) (haf : a ∈ g.arcs) (hinv : weakCoupling g)
    (h : augmentStep (g, rg) (a, d) = .ok (g', rg')) :
    weakCoupling g' ∧ g'.arcs = g.arcs ∧ g'.arcSrc = g.arcSrc ∧
    g'.arcTgt = g.arcTgt ∧ g'.capacityMap = g.capacityMap ∧
    g'.parentToDuplicateMap = g.parentToDuplicateMap ∧
    g'.duplicateToParentMap = g.duplicateToParentMap := by
  unfold augmentStep at h
  dsimp only at h
  simp only [arcSrc_setFlow, arcTgt_setFlow, outArcIds_setFlow,
    parentToDuplicateMap_setFlow, duplicateToParentMap_setFlow] at h
  obtain ⟨rg1, hup1, h⟩ := exceptBind_ok_inv h
  obtain ⟨hb1, hb2, -⟩ := updateArc_ok_elim _ _ _ _ hup1
  rw [flowMap_setFlow, Function.update_same] at hb1
  rw [flowMap_setFlow, Function.update_same, capacityMap_setFlow] at hb2
  revert h
  cases hm1 : mapFind? g.duplicateToParentMap (g.arcSrc a) with
  | some parent =>
    intro h
    dsimp only at h
    have hpp : mapFind? g.parentToDuplicateMap parent = some (g.arcSrc a) :=
      wf_p2d_of_d2p g hwf _ _ hm1
    have hpar_ne : parent ≠ g.arcSrc a := by
      intro he
      rw [he] at hpp
      rw [wf_no_d2p g hwf _ _ hpp] at hm1
      exact Option.noConfusion hm1
    revert h
    cases hf : (outArcIds g parent).find? (fun b => g.arcTgt b == g.arcTgt a) with
    | some oa =>
      intro h
      dsimp only at h
      obtain ⟨hoa_arcs, hoa_src, hoa_tgt⟩ := findOutArc_some g parent (g.arcTgt a) oa hf
      have hoa_ne : oa ≠ a := by
        intro he
        rw [he] at hoa_src
        exact hpar_ne hoa_src.symm
      obtain ⟨rg2, hup2, h⟩ := exceptBind_ok_inv h
      rw [exceptPure_ok, Except.ok.injEq, Prod.mk.injEq] at h
      obtain ⟨hg', -⟩ := h
      rw [← hg']
      refine ⟨?_, rfl, rfl, rfl, rfl, rfl, rfl⟩
      intro p hp
      obtain ⟨av, ad⟩ := p
      rw [couplingPairs_setFlow, couplingPairs_setFlow] at hp
      obtain ⟨hav, had, hmap, htgt⟩ := (mem_couplingPairs g av ad).mp hp
      simp only [flowMap_setFlow]
      rw [Function.update_noteq hoa_ne]
      by_cases had_a : ad = a
      · have hsrc_av : g.arcSrc av = parent := by
          have h1 := wf_d2p_of_p2d g hwf _ _ hmap
          rw [had_a, hm1] at h1
          exact (Option.some.inj h1).symm
        have hav_oa : av = oa :=
          hwf.noParallel av hav oa hoa_arcs (by rw [hsrc_av, hoa_src])
            (by rw [← htgt, had_a, hoa_tgt])
        rw [had_a, hav_oa]
        rw [Function.update_noteq (Ne.symm hoa_ne), Function.update_same,
          Function.update_same]
        have hcap := wf_cap_one g hwf a parent haf hm1
        have hpair : (oa, a) ∈ couplingPairs g :=
          (mem_couplingPairs g oa a).mpr ⟨hoa_arcs, haf,
            (by rw [hoa_src]; exact hpp), hoa_tgt.symm⟩
        have hio := hinv (oa, a) hpair
        dsimp only at hio
        constructor
        · omega
        · omega
      · by_cases had_oa : ad = oa
        · exfalso
          have h1 : mapFind? g.parentToDuplicateMap (g.arcSrc av) = some parent := by
            rw [had_oa, hoa_src] at hmap
            exact hmap
          have h2 := wf_d2p_of_p2d g hwf _ _ h1
          rw [wf_no_d2p g hwf _ _ hpp] at h2
          exact Option.noConfusion h2
        · by_cases hav_a : av = a
          · exfalso
            rw [hav_a, wf_no_p2d g hwf _ _ hm1] at hmap
            exact Option.noConfusion hmap
          · by_cases hav_oa : av = oa
            · exfalso
              have h1 : mapFind? g.parentToDuplicateMap parent = some (g.arcSrc ad) := by
                rw [hav_oa, hoa_src] at hmap
                exact hmap
              rw [hpp] at h1
              have h2 : g.arcSrc ad = g.arcSrc a := (Option.some.inj h1).symm
              have h3 : g.arcTgt ad = g.arcTgt a := by
                rw [htgt, hav_oa, hoa_tgt]
              exact had_a (hwf.noParallel ad had a haf h2 h3)
            · rw [Function.update_noteq had_oa, Function.update_noteq had_a,
                Function.update_noteq hav_oa, Function.update_noteq hav_a]
              exact hinv (av, ad) hp
    | none =>
      intro h
      dsimp only at h
      rw [exceptPure_ok, Except.ok.injEq, Prod.mk.injEq] at h
      obtain ⟨hg', -⟩ := h
      rw [← hg']
      refine ⟨?_, rfl, rfl, rfl, rfl, rfl, rfl⟩
      intro p hp
      obtain ⟨av, ad⟩ := p
      rw [couplingPairs_setFlow] at hp
      obtain ⟨hav, had, hmap, htgt⟩ := (mem_couplingPairs g av ad).mp hp
      simp only [flowMap_setFlow]
      by_cases hav_a : av = a
      · exfalso
        rw [hav_a, wf_no_p2d g hwf _ _ hm1] at hmap
        exact Option.noConfusion hmap
      · by_cases had_a : ad = a
        · exfalso
          have h1 := wf_d2p_of_p2d g hwf _ _ hmap
          rw [had_a, hm1] at h1
          have hsrc_av : g.arcSrc av = parent := (Option.some.inj h1).symm
          exact findOutArc_none g parent (g.arcTgt a) hf av hav hsrc_av
            (by rw [← htgt, had_a])
        · rw [Function.update_noteq had_a, Function.update_noteq hav_a]
          exact hinv (av, ad) hp
  | none =>
    intro h
    dsimp only at h
    revert h
    cases hm2 : mapFind? g.parentToDuplicateMap (g.arcSrc a) with
    | some dup =>
      intro h
      dsimp only at h
      have hdd : mapFind? g.duplicateToParentMap dup = some (g.arcSrc a) :=
        wf_d2p_of_p2d g hwf _ _ hm2
      revert h
      cases hf : (outArcIds g dup).find? (fun b => g.arcTgt b == g.arcTgt a) with
      | some oa =>
        intro h
        dsimp only at h
        obtain ⟨hoa_arcs, hoa_src, hoa_tgt⟩ := findOutArc_some g dup (g.arcTgt a) oa hf
        have hoa_ne : oa ≠ a := by
          intro he
          rw [he] at hoa_src
          rw [hoa_src] at hm1
          rw [hm1] at hdd
          exact Option.noConfusion hdd
        obtain ⟨rg2, hup2, h⟩ := exceptBind_ok_inv h
        rw [exceptPure_ok, Except.ok.injEq, Prod.mk.injEq] at h
        obtain ⟨hg', -⟩ := h
        rw [← hg']
        refine ⟨?_, rfl, rfl, rfl, rfl, rfl, rfl⟩
        intro p hp
        obtain ⟨av, ad⟩ := p
        rw [couplingPairs_setFlow, couplingPairs_setFlow] at hp
        obtain ⟨hav, had, hmap, htgt⟩ := (mem_couplingPairs g av ad).mp hp
        simp only [flowMap_setFlow]
        rw [Function.update_same]
        by_cases hav_a : av = a
        · have hsrc_ad : g.arcSrc ad = dup := by
            rw [hav_a, hm2] at hmap
            exact (Option.some.inj hmap).symm
          have had_oa : ad = oa :=
            hwf.noParallel ad had oa hoa_arcs (by rw [hsrc_ad, hoa_src])
              (by rw [htgt, hav_a, hoa_tgt])
          rw [hav_a, had_oa]
          rw [Function.update_same, Function.update_noteq (Ne.symm hoa_ne),
            Function.update_same]
          exact ⟨min_le_right _ _, min_le_left _ _⟩
        · by_cases had_a : ad = a
          · exfalso
            have h1 := wf_d2p_of_p2d g hwf _ _ hmap
            rw [had_a, hm1] at h1
            exact Option.noConfusion h1
          · by_cases had_oa : ad = oa
            · exfalso
              have h1 : mapFind? g.parentToDuplicateMap (g.arcSrc av) = some dup := by
                rw [had_oa, hoa_src] at hmap
                exact hmap
              have h2 := wf_d2p_of_p2d g hwf _ _ h1
              rw [hdd] at h2
              have h3 : g.arcSrc av = g.arcSrc a := (Option.some.inj h2).symm
              have h4 : g.arcTgt av = g.arcTgt a := by
                rw [← htgt, had_oa, hoa_tgt]
              exact hav_a (hwf.noParallel av hav a haf h3 h4)
            · by_cases hav_oa : av = oa
              · exfalso
                have h1 : mapFind? g.parentToDuplicateMap dup = some (g.arcSrc ad) := by
                  rw [hav_oa, hoa_src] at hmap
                  exact hmap
                rw [wf_no_p2d g hwf _ _ hdd] at h1
                exact Option.noConfusion h1
              · rw [Function.update_noteq had_oa, Function.update_noteq had_a,
                  Function.update_noteq hav_oa, Function.update_noteq hav_a]
                exact hinv (av, ad) hp
      | none =>
        intro h
        dsimp only at h
        rw [exceptPure_ok, Except.ok.injEq, Prod.mk.injEq] at h
        obtain ⟨hg', -⟩ := h
        rw [← hg']
        refine ⟨?_, rfl, rfl, rfl, rfl, rfl, rfl⟩
        intro p hp
        obtain ⟨av, ad⟩ := p
        rw [couplingPairs_setFlow] at hp
        obtain ⟨hav, had, hmap, htgt⟩ := (mem_couplingPairs g av ad).mp hp
        simp only [flowMap_setFlow]
        by_cases hav_a : av = a
        · exfalso
          have hsrc_ad : g.arcSrc ad = dup := by
            rw [hav_a, hm2] at hmap
            exact (Option.some.inj hmap).symm
          exact findOutArc_none g dup (g.arcTgt a) hf ad had hsrc_ad
            (by rw [htgt, hav_a])
        · by_cases had_a : ad = a
          · exfalso
            have h1 := wf_d2p_of_p2d g hwf _ _ hmap
            rw [had_a, hm1] at h1
            exact Option.noConfusion h1
          · rw [Function.update_noteq had_a, Function.update_noteq hav_a]
            exact hinv (av, ad) hp
    | none =>
      intro h
      dsimp only at h
      rw [exceptPure_ok, Except.ok.injEq, Prod.mk.injEq] at h
      obtain ⟨hg', -⟩ := h
      rw [← hg']
      refine ⟨?_, rfl, rfl, rfl, rfl, rfl, rfl⟩
      intro p hp
      obtain ⟨av, ad⟩ := p
      rw [couplingPairs_setFlow] at hp
      obtain ⟨hav, had, hmap, htgt⟩ := (mem_couplingPairs g av ad).mp hp
      simp only [flowMap_setFlow]
      by_cases hav_a : av = a
      · exfalso
        rw [hav_a, hm2] at hmap
        exact Option.noConfusion hmap
      · by_cases had_a : ad = a
        · exfalso
          have h1 := wf_d2p_of_p2d g hwf _ _ hmap
          rw [had_a, hm1] at h1
          exact Option.noConfusion h1
        · rw [Function.update_noteq had_a, Function.update_noteq hav_a]
          exact hinv (av, ad) hp

/-- C2 amended: after every augmentation step (augmentUnitFlow over any
path whose arcs belong to the well-formed graph), for each parent node v
with duplicate d and every common target w with arcs v→w and d→w, the
weak division coupling of §8 is preserved: flow(d→w) ≤ 1 and
flow(v→w) ≥ flow(d→w). -/
theorem augmentUnitFlow_preserves_weakCoupling (g : FG) (rg : RG)
    (p : List (Nat × Int)) (hwf : WF g) (hp : ∀ af ∈ p, af.1 ∈ g.arcs)
    (hinv : weakCoupling g) (g' : FG) (rg' : RG)
    (hok : augmentUnitFlow g rg p = .ok (g', rg')) : weakCoupling g' := by
  induction p generalizing g rg with
  | nil =>
    unfold augmentUnitFlow at hok
    rw [List.foldlM_nil, exceptPure_ok, Except.ok.injEq, Prod.mk.injEq] at hok
    rw [← hok.1]
    exact hinv
  | cons af rest ih =>
    unfold augmentUnitFlow at hok
    rw [List.foldlM_cons] at hok
    obtain ⟨⟨g1, rg1⟩, hstep, hrest⟩ := exceptBind_ok_inv hok
    obtain ⟨a, δ⟩ := af
    obtain ⟨hw1, harcs, hsrc, htgt2, hcap, hp2d, hd2p⟩ :=
      augmentStep_weak g rg a δ g1 rg1 hwf (hp (a, δ) (List.mem_cons_self _ _))
        hinv hstep
    have hwf1 : WF g1 := by
      constructor
      · intro pr hpr
        rw [hp2d] at hpr
        rw [hd2p]
        exact hwf.coherent1 pr hpr
      · intro pr hpr
        rw [hd2p] at hpr
        rw [hp2d]
        exact hwf.coherent2 pr hpr
      · intro pr hpr
        rw [hp2d] at hpr
        rw [hd2p]
        exact hwf.disjoint1 pr hpr
      · intro b hb
        rw [harcs] at hb
        rw [hd2p, hsrc, hcap]
        exact hwf.dupCapOne b hb
      · intro b hb c hc
        rw [harcs] at hb hc
        rw [hsrc, htgt2]
        exact hwf.noParallel b hb c hc
    have hp1 : ∀ bf ∈ rest, bf.1 ∈ g1.arcs := by
      intro bf hbf
      rw [harcs]
      exact hp bf (List.mem_cons_of_mem _ hbf)
    exact ih g1 rg1 hwf1 hp1 hw1 hrest

/-- The division example with a two-unit parent arc: detections A (nodes
2, 3; arc 0) and B (nodes 4, 5; arc 1), transition arc 2 from 3 to 4
with capacity 2, and mitosis of A adding duplicate 6, division arc 3
and mirrored arc 4 from 6 to 4 with capacity 1. -/
def builtC2 : Except String FG := do
  let (g1, A) ← addNode newGraph [-1] 0
  let (g2, B) ← addNode g1 [-1] 1
  let (g3, _) ← addArcF g2 A B [0, 0]
  let (g4, _) ← allowMitosis g3 A (-2)
  pure g4

/-- The concrete graph with flow 2 on the parent arc 2 and flow 1 on the
duplicate arc 4. -/
def gPre : FG :=
  setFlow (setFlow (match builtC2 with | .ok g => g | .error _ => newGraph) 2 2) 4 1

/-- Result of augmenting one unit backwards along the duplicate arc 4. -/
def augC2 : Except String (FG × RG) := augmentUnitFlow gPre emptyRG [(4, -1)]

/-- The flow state after the backward augmentation. -/
def gPost : FG :=
  match augC2 with
  | .ok r => r.1
  | .error _ => gPre

/-- The residual state after the backward augmentation. -/
def rgPost : RG :=
  match augC2 with
  | .ok r => r.2
  | .error _ => emptyRG

/-- The augmentation evaluates to the recorded post-state. -/
theorem augC2_eq : augmentUnitFlow gPre emptyRG [(4, -1)] = .ok (gPost, rgPost) := rfl

/-- C2 counterexample: the pre-state satisfies the claimed equality
flow(d→w) = min(flow(v→w), 1) on every coupled pair, the augmentation of
the single-element path [(arc 4, −1)] succeeds, yet afterwards
flow(v→w) = 1 while flow(d→w) = 0, violating the claimed equality. -/
theorem augment_strongCoupling_cex :
    strongCoupling gPre ∧
    augmentUnitFlow gPre emptyRG [(4, -1)] = .ok (gPost, rgPost) ∧
    gPost.flowMap 2 = 1 ∧ gPost.flowMap 4 = 0 ∧
    ¬ strongCoupling gPost :=
  ⟨by decide, rfl, rfl, rfl, by decide⟩

/-- C2 witness for the amended statement: the weak coupling holds in the
concrete post-state. -/
theorem augmentUnitFlow_preserves_weakCoupling_witness :
    weakCoupling gPost :=
  augmentUnitFlow_preserves_weakCoupling gPre emptyRG [(4, -1)]
    ⟨by decide, by decide, by decide, by decide, by decide⟩
    (by decide) (by decide) gPost rgPost augC2_eq

/-- syncNodePair is the fold of the named step over the parent's out-arcs. -/
theorem syncNodePair_eq_foldl (g : FG) (vd : Nat × Nat) :
    syncNodePair g vd = (outArcIds g vd.1).foldl (syncStep vd) g := rfl

/-- In a map with distinct keys, every entry is found by lookup. -/
theorem mapFind?_of_mem_nodupKeys (m : List (Nat × Nat))
    (hk : (m.map Prod.fst).Nodup) (pr : Nat × Nat) (h : pr ∈ m) :
    mapFind? m pr.1 = some pr.2 := by
  induction m with
  | nil => cases h
  | cons q m ih =>
    rw [List.map_cons, List.nodup_cons] at hk
    cases List.mem_cons.mp h with
    | inl hq =>
      subst hq
      unfold mapFind?
      rw [List.find?_cons_of_pos _ (by simp)]
      rfl
    | inr hm =>
      have hne : q.1 ≠ pr.1 := by
        intro he
        exact hk.1 (he ▸ List.mem_map_of_mem Prod.fst hm)
      unfold mapFind?
      rw [List.find?_cons_of_neg _ (by simp [hne])]
      exact ih hk.2 hm

/-- Structural equality is reflexive. -/
theorem shapeEq_rfl (g : FG) : ShapeEq g g := ⟨rfl, rfl, rfl, rfl, rfl⟩

/-- setFlow keeps the structure. -/
theorem shapeEq_setFlow (g gacc : FG) (a : Nat) (f : Int) (h : ShapeEq g gacc) :
    ShapeEq g (setFlow gacc a f) :=
  ⟨h.arcs, h.src, h.tgt, h.p2d, h.d2p⟩

/-- Out-arc lists only depend on the structure. -/
theorem outArcIds_shapeEq (g gacc : FG) (h : ShapeEq g gacc) (n : Nat) :
    outArcIds gacc n = outArcIds g n := by
  unfold outArcIds
  rw [h.arcs, h.src]

/-- One synchronisation step keeps the structure. -/
theorem syncStep_shapeEq (g gacc : FG) (vd : Nat × Nat) (oa : Nat) (h : ShapeEq g gacc) :
    ShapeEq g (syncStep vd gacc oa) := by
  simp only [syncStep]
  cases hf : (outArcIds gacc vd.2).find? (fun da => gacc.arcTgt da == gacc.arcTgt oa) with
  | none => exact h
  | some da => exact shapeEq_setFlow _ _ _ _ (shapeEq_setFlow _ _ _ _ h)

/-- One synchronisation step leaves every arc other than the parent
out-arc and its matched duplicate arc untouched. -/
theorem syncStep_flow_other (gacc : FG) (vd : Nat × Nat) (oa b : Nat)
    (hboa : b ≠ oa)
    (hbda : ∀ da,
      (outArcIds gacc vd.2).find? (fun x => gacc.arcTgt x == gacc.arcTgt oa) = some da →
      b ≠ da) :
    (syncStep vd gacc oa).flowMap b = gacc.flowMap b := by
  simp only [syncStep]
  cases hf : (outArcIds gacc vd.2).find? (fun x => gacc.arcTgt x == gacc.arcTgt oa) with
  | none => rfl
  | some da =>
    simp only [flowMap_setFlow]
    rw [Function.update_noteq hboa, Function.update_noteq (hbda da hf)]

/-- One synchronisation step on a matched pair sets the parent arc to the
maximum of the two flows and the duplicate arc to that maximum capped at
one. -/
theorem syncStep_flow_hit (gacc : FG) (vd : Nat × Nat) (oa da : Nat)
    (hf : (outArcIds gacc vd.2).find? (fun x => gacc.arcTgt x == gacc.arcTgt oa) = some da)
    (hne : da ≠ oa) :
    (syncStep vd gacc oa).flowMap oa = max (gacc.flowMap oa) (gacc.flowMap da) ∧
    (syncStep vd gacc oa).flowMap da = min (max (gacc.flowMap oa) (gacc.flowMap da)) 1 := by
  simp only [syncStep]
  rw [hf]
  constructor
  · simp only [flowMap_setFlow]
    rw [Function.update_same]
  · simp only [flowMap_setFlow]
    rw [Function.update_noteq hne, Function.update_same]

/-- The two arcs of a coupled pair leave distinct nodes, hence differ. -/
theorem coupling_src_ne (g : FG) (hwf : WF g) (av ad : Nat)
    (hpair : (av, ad) ∈ couplingPairs g) :
    g.arcSrc av ≠ g.arcSrc ad ∧ ad ≠ av := by
  obtain ⟨hav, had, hmap, htgt⟩ := (mem_couplingPairs g av ad).mp hpair
  have h1 := wf_d2p_of_p2d g hwf _ _ hmap
  have h2 := wf_no_d2p g hwf _ _ hmap
  have hsrc : g.arcSrc av ≠ g.arcSrc ad := by
    intro he
    rw [← he] at h1
    rw [h2] at h1
    exact Option.noConfusion h1
  exact ⟨hsrc, fun he => hsrc (by rw [he])⟩

/-- Processing a parent out-arc other than the pair's own parent arc
leaves the pair's two flows unchanged. -/
theorem syncStep_avoid (g gacc : FG) (hwf : WF g) (av ad x : Nat)
    (hpair : (av, ad) ∈ couplingPairs g) (hsh : ShapeEq g gacc)
    (hx : g.arcSrc x = g.arcSrc av) (hxmem : x ∈ g.arcs) (hxav : x ≠ av) :
    (syncStep (g.arcSrc av, g.arcSrc ad) gacc x).flowMap av = gacc.flowMap av ∧
    (syncStep (g.arcSrc av, g.arcSrc ad) gacc x).flowMap ad = gacc.flowMap ad := by
  obtain ⟨hav, had, hmap, htgt⟩ := (mem_couplingPairs g av ad).mp hpair
  obtain ⟨hvd, -⟩ := coupling_src_ne g hwf av ad hpair
  have hdafacts : ∀ da,
      (outArcIds gacc ((g.arcSrc av, g.arcSrc ad) : Nat × Nat).2).find?
        (fun y => gacc.arcTgt y == gacc.arcTgt x) = some da →
      g.arcSrc da = g.arcSrc ad ∧ g.arcTgt da = g.arcTgt x ∧ da ∈ g.arcs := by
    intro da hf
    obtain ⟨hmem, hsrc, htg⟩ := findOutArc_some gacc _ _ _ hf
    rw [hsh.arcs] at hmem
    rw [hsh.src] at hsrc
    rw [hsh.tgt] at htg
    exact ⟨hsrc, htg, hmem⟩
  constructor
  · refine syncStep_flow_other gacc _ x av (Ne.symm hxav) ?_
    intro da hf heq
    obtain ⟨hsrc, -, -⟩ := hdafacts da hf
    apply hvd
    rw [heq, hsrc]
  · refine syncStep_flow_other gacc _ x ad ?_ ?_
    · intro heq
      apply hvd
      rw [heq, hx]
    · intro da hf heq
      obtain ⟨hsrc, htg, hmem⟩ := hdafacts da hf
      have hxt : g.arcTgt x = g.arcTgt av := by rw [← htg, ← heq, htgt]
      exact hxav (hwf.noParallel x hxmem av hav (by rw [hx]) hxt)

/-- Folding steps that all avoid the pair leaves its flows unchanged. -/
theorem syncFold_avoid (g : FG) (hwf : WF g) (av ad : Nat)
    (hpair : (av, ad) ∈ couplingPairs g) :
    ∀ (l : List Nat), (∀ x ∈ l, g.arcSrc x = g.arcSrc av ∧ x ∈ g.arcs ∧ x ≠ av) →
    ∀ gacc, ShapeEq g gacc →
    (l.foldl (syncStep (g.arcSrc av, g.arcSrc ad)) gacc).flowMap av = gacc.flowMap av ∧
    (l.foldl (syncStep (g.arcSrc av, g.arcSrc ad)) gacc).flowMap ad = gacc.flowMap ad ∧
    ShapeEq g (l.foldl (syncStep (g.arcSrc av, g.arcSrc ad)) gacc) := by
  intro l
  induction l with
  | nil => intro _ gacc hsh; exact ⟨rfl, rfl, hsh⟩
  | cons x l ih =>
    intro hl gacc hsh
    obtain ⟨hx, hxmem, hxav⟩ := hl x (List.mem_cons_self x l)
    have hstep := syncStep_avoid g gacc hwf av ad x hpair hsh hx hxmem hxav
    have hsh2 := syncStep_shapeEq g gacc (g.arcSrc av, g.arcSrc ad) x hsh
    have hrest := ih (fun y hy => hl y (List.mem_cons_of_mem x hy)) _ hsh2
    rw [List.foldl_cons]
    exact ⟨hrest.1.trans hstep.1, hrest.2.1.trans hstep.2, hrest.2.2⟩

/-- Folding the parent's out-arcs over a list that contains the pair's
parent arc exactly once synchronises the pair: the parent arc gets the
maximum of the two flows, the duplicate arc that maximum capped at one. -/
theorem syncFold_hit (g : FG) (hwf : WF g) (av ad : Nat)
    (hpair : (av, ad) ∈ couplingPairs g) :
    ∀ (l : List Nat), l.Nodup → (∀ x ∈ l, g.arcSrc x = g.arcSrc av ∧ x ∈ g.arcs) →
    av ∈ l →
    ∀ gacc, ShapeEq g gacc →
    (l.foldl (syncStep (g.arcSrc av, g.arcSrc ad)) gacc).flowMap av
      = max (gacc.flowMap av) (gacc.flowMap ad) ∧
    (l.foldl (syncStep (g.arcSrc av, g.arcSrc ad)) gacc).flowMap ad
      = min (max (gacc.flowMap av) (gacc.flowMap ad)) 1 ∧
    ShapeEq g (l.foldl (syncStep (g.arcSrc av, g.arcSrc ad)) gacc) := by
  obtain ⟨hav, had, hmap, htgt⟩ := (mem_couplingPairs g av ad).mp hpair
  obtain ⟨hsrcne, hadav⟩ := coupling_src_ne g hwf av ad hpair
  intro l
  induction l with
  | nil => intro _ _ hmem; cases hmem
  | cons x l ih =>
    intro hndl hl hmem gacc hsh
    rw [List.foldl_cons]
    by_cases hxav : x = av
    · subst hxav
      have hfind : (outArcIds gacc ((g.arcSrc x, g.arcSrc ad) : Nat × Nat).2).find?
          (fun y => gacc.arcTgt y == gacc.arcTgt x) = some ad := by
        cases hf : (outArcIds gacc ((g.arcSrc x, g.arcSrc ad) : Nat × Nat).2).find?
            (fun y => gacc.arcTgt y == gacc.arcTgt x) with
        | none =>
          exfalso
          refine findOutArc_none gacc _ _ hf ad (by rw [hsh.arcs]; exact had)
            (by rw [hsh.src]) ?_
          rw [hsh.tgt]
          exact htgt
        | some da =>
          obtain ⟨hmemda, hsrcda, htgda⟩ := findOutArc_some gacc _ _ _ hf
          rw [hsh.arcs] at hmemda
          rw [hsh.src] at hsrcda
          rw [hsh.tgt] at htgda
          have hda : da = ad := by
            refine hwf.noParallel da hmemda ad had ?_ ?_
            · rw [hsrcda]
            · rw [htgda, ← htgt]
          rw [hda]
      have hstep := syncStep_flow_hit gacc (g.arcSrc x, g.arcSrc ad) x ad hfind hadav
      have hsh2 := syncStep_shapeEq g gacc (g.arcSrc x, g.arcSrc ad) x hsh
      have hl' : ∀ y ∈ l, g.arcSrc y = g.arcSrc x ∧ y ∈ g.arcs ∧ y ≠ x := by
        intro y hy
        obtain ⟨h1, h2⟩ := hl y (List.mem_cons_of_mem _ hy)
        exact ⟨h1, h2, fun he => (List.nodup_cons.mp hndl).1 (he ▸ hy)⟩
      have hrest := syncFold_avoid g hwf x ad hpair l hl' _ hsh2
      rw [hrest.1, hrest.2.1, hstep.1, hstep.2]
      exact ⟨rfl, rfl, hrest.2.2⟩
    · have hx := hl x (List.mem_cons_self x l)
      have hstep := syncStep_avoid g gacc hwf av ad x hpair hsh hx.1 hx.2 hxav
      have hsh2 := syncStep_shapeEq g gacc (g.arcSrc av, g.arcSrc ad) x hsh
      have hmem' : av ∈ l := by
        cases List.mem_cons.mp hmem with
        | inl h => exact absurd h.symm hxav
        | inr h => exact h
      have hrest := ih (List.nodup_cons.mp hndl).2
        (fun y hy => hl y (List.mem_cons_of_mem x hy)) hmem' _ hsh2
      rw [hrest.1, hrest.2.1, hstep.1, hstep.2]
      exact ⟨rfl, rfl, hrest.2.2⟩

/-- A different parent entry of the division map involves neither the
pair's parent node nor its duplicate node. -/
theorem other_entry_ne (g : FG) (hwf : WF g) (av ad : Nat)
    (hpair : (av, ad) ∈ couplingPairs g) (v' d' : Nat)
    (hfind : mapFind? g.parentToDuplicateMap v' = some d')
    (hne : v' ≠ g.arcSrc av) :
    g.arcSrc av ≠ v' ∧ g.arcSrc av ≠ d' ∧ g.arcSrc ad ≠ v' ∧ g.arcSrc ad ≠ d' := by
  obtain ⟨hav, had, hmap, htgt⟩ := (mem_couplingPairs g av ad).mp hpair
  refine ⟨Ne.symm hne, ?_, ?_, ?_⟩
  · intro he
    have h1 := wf_d2p_of_p2d g hwf _ _ hfind
    have h2 := wf_no_d2p g hwf _ _ hmap
    rw [← he] at h1
    rw [h2] at h1
    exact Option.noConfusion h1
  · intro he
    have h1 := wf_d2p_of_p2d g hwf _ _ hmap
    have h2 := wf_no_d2p g hwf _ _ hfind
    rw [he] at h1
    rw [h2] at h1
    exact Option.noConfusion h1
  · intro he
    have h1 := wf_d2p_of_p2d g hwf _ _ hfind
    have h2 := wf_d2p_of_p2d g hwf _ _ hmap
    rw [← he] at h1
    rw [h2] at h1
    exact hne (Option.some.inj h1).symm

/-- Synchronising one parent/duplicate entry leaves every arc whose
source is neither of the entry's nodes untouched. -/
theorem syncFold_frame (g : FG) (vd : Nat × Nat) (b : Nat)
    (hb1 : g.arcSrc b ≠ vd.1) (hb2 : g.arcSrc b ≠ vd.2) :
    ∀ (l : List Nat), (∀ x ∈ l, g.arcSrc x = vd.1) →
    ∀ gacc, ShapeEq g gacc →
    (l.foldl (syncStep vd) gacc).flowMap b = gacc.flowMap b ∧
    ShapeEq g (l.foldl (syncStep vd) gacc) := by
  intro l
  induction l with
  | nil => intro _ gacc hsh; exact ⟨rfl, hsh⟩
  | cons x l ih =>
    intro hl gacc hsh
    have hx := hl x (List.mem_cons_self x l)
    have hbx : b ≠ x := fun he => hb1 (by rw [he, hx])
    have hstep : (syncStep vd gacc x).flowMap b = gacc.flowMap b := by
      refine syncStep_flow_other gacc vd x b hbx ?_
      intro da hf he
      obtain ⟨hmem, hsrc, htg⟩ := findOutArc_some gacc _ _ _ hf
      rw [hsh.src] at hsrc
      exact hb2 (by rw [he, hsrc])
    have hsh2 := syncStep_shapeEq g gacc vd x hsh
    have hrest := ih (fun y hy => hl y (List.mem_cons_of_mem x hy)) _ hsh2
    rw [List.foldl_cons]
    exact ⟨hrest.1.trans hstep, hrest.2⟩

/-- The per-entry frame lemma lifted to syncNodePair. -/
theorem syncNodePair_frame (g : FG) (vd : Nat × Nat) (b : Nat)
    (hb1 : g.arcSrc b ≠ vd.1) (hb2 : g.arcSrc b ≠ vd.2)
    (gacc : FG) (hsh : ShapeEq g gacc) :
    (syncNodePair gacc vd).flowMap b = gacc.flowMap b ∧
    ShapeEq g (syncNodePair gacc vd) := by
  rw [syncNodePair_eq_foldl]
  refine syncFold_frame g vd b hb1 hb2 _ ?_ gacc hsh
  intro x hx
  rw [outArcIds_shapeEq g gacc hsh] at hx
  unfold outArcIds at hx
  simpa using List.of_mem_filter hx

/-- Processing only division entries that do not involve the pair keeps
the pair's flows unchanged. -/
theorem syncOuterFold_avoid (g : FG) (hwf : WF g) (av ad : Nat)
    (hpair : (av, ad) ∈ couplingPairs g) :
    ∀ (m : List (Nat × Nat)),
    (∀ pr ∈ m, mapFind? g.parentToDuplicateMap pr.1 = some pr.2 ∧ pr.1 ≠ g.arcSrc av) →
    ∀ gacc, ShapeEq g gacc →
    (m.foldl syncNodePair gacc).flowMap av = gacc.flowMap av ∧
    (m.foldl syncNodePair gacc).flowMap ad = gacc.flowMap ad ∧
    ShapeEq g (m.foldl syncNodePair gacc) := by
  intro m
  induction m with
  | nil => intro _ gacc hsh; exact ⟨rfl, rfl, hsh⟩
  | cons pr m ih =>
    intro hm gacc hsh
    obtain ⟨hfind, hne⟩ := hm pr (List.mem_cons_self pr m)
    obtain ⟨hne1, hne2, hne3, hne4⟩ := other_entry_ne g hwf av ad hpair pr.1 pr.2 hfind hne
    have hva := syncNodePair_frame g pr av hne1 hne2 gacc hsh
    have hvb := syncNodePair_frame g pr ad hne3 hne4 gacc hsh
    have hrest := ih (fun q hq => hm q (List.mem_cons_of_mem pr hq)) _ hva.2
    rw [List.foldl_cons]
    exact ⟨hrest.1.trans hva.1, hrest.2.1.trans hvb.1, hrest.2.2⟩

/-- Folding syncNodePair over a distinct-keyed list of valid division
entries containing the pair's own entry synchronises the pair. -/
theorem syncOuter_hit (g : FG) (hwf : WF g) (hnd : g.arcs.Nodup) (av ad : Nat)
    (hpair : (av, ad) ∈ couplingPairs g) :
    ∀ (m : List (Nat × Nat)), (m.map Prod.fst).Nodup →
    (∀ pr ∈ m, mapFind? g.parentToDuplicateMap pr.1 = some pr.2) →
    (g.arcSrc av, g.arcSrc ad) ∈ m →
    ∀ gacc, ShapeEq g gacc →
    (m.foldl syncNodePair gacc).flowMap av = max (gacc.flowMap av) (gacc.flowMap ad) ∧
    (m.foldl syncNodePair gacc).flowMap ad
      = min (max (gacc.flowMap av) (gacc.flowMap ad)) 1 ∧
    ShapeEq g (m.foldl syncNodePair gacc) := by
  obtain ⟨hav, had, hmap, htgt⟩ := (mem_couplingPairs g av ad).mp hpair
  intro m
  induction m with
  | nil => intro _ _ hmem; cases hmem
  | cons pr m ih =>
    intro hk hma hmem gacc hsh
    rw [List.map_cons, List.nodup_cons] at hk
    rw [List.foldl_cons]
    cases List.mem_cons.mp hmem with
    | inl hq =>
      subst hq
      have hk1 : g.arcSrc av ∉ m.map Prod.fst := hk.1
      have hinner :
          (syncNodePair gacc (g.arcSrc av, g.arcSrc ad)).flowMap av
            = max (gacc.flowMap av) (gacc.flowMap ad) ∧
          (syncNodePair gacc (g.arcSrc av, g.arcSrc ad)).flowMap ad
            = min (max (gacc.flowMap av) (gacc.flowMap ad)) 1 ∧
          ShapeEq g (syncNodePair gacc (g.arcSrc av, g.arcSrc ad)) := by
        rw [syncNodePair_eq_foldl]
        have hlist : outArcIds gacc ((g.arcSrc av, g.arcSrc ad) : Nat × Nat).1
            = outArcIds g (g.arcSrc av) := outArcIds_shapeEq g gacc hsh (g.arcSrc av)
        rw [hlist]
        refine syncFold_hit g hwf av ad hpair (outArcIds g (g.arcSrc av)) ?_ ?_ ?_ gacc hsh
        · exact List.Nodup.filter _ hnd
        · intro x hx
          unfold outArcIds at hx
          exact ⟨by simpa using List.of_mem_filter hx, List.mem_of_mem_filter hx⟩
        · unfold outArcIds
          exact List.mem_filter.mpr ⟨hav, by simp⟩
      have hrest := syncOuterFold_avoid g hwf av ad hpair m
        (fun q hq2 => ⟨hma q (List.mem_cons_of_mem _ hq2),
          fun he => hk1 (by rw [← he]; exact List.mem_map_of_mem Prod.fst hq2)⟩)
        _ hinner.2.2
      exact ⟨hrest.1.trans hinner.1, hrest.2.1.trans hinner.2.1, hrest.2.2⟩
    | inr hmem' =>
      have hfind := hma pr (List.mem_cons_self pr m)
      have hmemmap : g.arcSrc av ∈ m.map Prod.fst :=
        List.mem_map_of_mem Prod.fst hmem'
      have hprne : pr.1 ≠ g.arcSrc av := fun he => hk.1 (by rw [he]; exact hmemmap)
      obtain ⟨hne1, hne2, hne3, hne4⟩ :=
        other_entry_ne g hwf av ad hpair pr.1 pr.2 hfind hprne
      have hva := syncNodePair_frame g pr av hne1 hne2 gacc hsh
      have hvb := syncNodePair_frame g pr ad hne3 hne4 gacc hsh
      have hrest := ih hk.2 (fun q hq => hma q (List.mem_cons_of_mem pr hq)) hmem' _ hva.2
      rw [hva.1, hvb.1] at hrest
      exact hrest

/-- Processing one parent out-arc never touches an arc that belongs to
no coupled pair. -/
theorem syncStep_unpaired (g gacc : FG) (vd : Nat × Nat)
    (hfind : mapFind? g.parentToDuplicateMap vd.1 = some vd.2)
    (hsh : ShapeEq g gacc) (oa : Nat) (hoa : g.arcSrc oa = vd.1) (hoam : oa ∈ g.arcs)
    (b : Nat) (hb : ∀ p ∈ couplingPairs g, b ≠ p.1 ∧ b ≠ p.2) :
    (syncStep vd gacc oa).flowMap b = gacc.flowMap b := by
  cases hf : (outArcIds gacc vd.2).find? (fun x => gacc.arcTgt x == gacc.arcTgt oa) with
  | none =>
    simp only [syncStep]
    rw [hf]
  | some da =>
    obtain ⟨hmem, hsrc, htg⟩ := findOutArc_some gacc _ _ _ hf
    rw [hsh.arcs] at hmem
    rw [hsh.src] at hsrc
    rw [hsh.tgt] at htg
    have hpairoa : (oa, da) ∈ couplingPairs g := by
      refine (mem_couplingPairs g oa da).mpr ⟨hoam, hmem, ?_, htg⟩
      rw [hoa, hsrc]
      exact hfind
    have hbp := hb (oa, da) hpairoa
    refine syncStep_flow_other gacc vd oa b hbp.1 ?_
    intro da' hf' he
    rw [hf] at hf'
    exact hbp.2 ((Option.some.inj hf') ▸ he)

/-- The fold of one entry's out-arcs never touches an unpaired arc. -/
theorem syncFold_unpaired (g : FG) (vd : Nat × Nat)
    (hfind : mapFind? g.parentToDuplicateMap vd.1 = some vd.2)
    (b : Nat) (hb : ∀ p ∈ couplingPairs g, b ≠ p.1 ∧ b ≠ p.2) :
    ∀ (l : List Nat), (∀ x ∈ l, g.arcSrc x = vd.1 ∧ x ∈ g.arcs) →
    ∀ gacc, ShapeEq g gacc →
    (l.foldl (syncStep vd) gacc).flowMap b = gacc.flowMap b ∧
    ShapeEq g (l.foldl (syncStep vd) gacc) := by
  intro l
  induction l with
  | nil => intro _ gacc hsh; exact ⟨rfl, hsh⟩
  | cons x l ih =>
    intro hl gacc hsh
    obtain ⟨hx, hxm⟩ := hl x (List.mem_cons_self x l)
    have hstep := syncStep_unpaired g gacc vd hfind hsh x hx hxm b hb
    have hsh2 := syncStep_shapeEq g gacc vd x hsh
    have hrest := ih (fun y hy => hl y (List.mem_cons_of_mem x hy)) _ hsh2
    rw [List.foldl_cons]
    exact ⟨hrest.1.trans hstep, hrest.2⟩

/-- syncNodePair never touches an unpaired arc. -/
theorem syncNodePair_unpaired (g : FG) (vd : Nat × Nat)
    (hfind : mapFind? g.parentToDuplicateMap vd.1 = some vd.2)
    (b : Nat) (hb : ∀ p ∈ couplingPairs g, b ≠ p.1 ∧ b ≠ p.2)
    (gacc : FG) (hsh : ShapeEq g gacc) :
    (syncNodePair gacc vd).flowMap b = gacc.flowMap b ∧
    ShapeEq g (syncNodePair gacc vd) := by
  rw [syncNodePair_eq_foldl]
  refine syncFold_unpaired g vd hfind b hb _ ?_ gacc hsh
  intro x hx
  rw [outArcIds_shapeEq g gacc hsh] at hx
  unfold outArcIds at hx
  exact ⟨by simpa using List.of_mem_filter hx, List.mem_of_mem_filter hx⟩

/-- The whole synchronisation fold never touches an unpaired arc. -/
theorem syncOuterFold_unpaired (g : FG) (b : Nat)
    (hb : ∀ p ∈ couplingPairs g, b ≠ p.1 ∧ b ≠ p.2) :
    ∀ (m : List (Nat × Nat)),
    (∀ pr ∈ m, mapFind? g.parentToDuplicateMap pr.1 = some pr.2) →
    ∀ gacc, ShapeEq g gacc →
    (m.foldl syncNodePair gacc).flowMap b = gacc.flowMap b ∧
    ShapeEq g (m.foldl syncNodePair gacc) := by
  intro m
  induction m with
  | nil => intro _ gacc hsh; exact ⟨rfl, hsh⟩
  | cons pr m ih =>
    intro hm gacc hsh
    have hfind := hm pr (List.mem_cons_self pr m)
    have hstep := syncNodePair_unpaired g pr hfind b hb gacc hsh
    have hrest := ih (fun q hq => hm q (List.mem_cons_of_mem pr hq)) _ hstep.2
    rw [List.foldl_cons]
    exact ⟨hrest.1.trans hstep.1, hrest.2⟩

/-- C10: on a well-formed graph (coherent division maps, no parallel
arcs, distinct arc ids, distinct parent keys),
synchronizeDivisionDuplicateArcFlows sets, for every coupled pair of a
parent arc v→w and duplicate arc d→w, the parent arc's flow to the
maximum m of the two previous flows and the duplicate arc's flow to
min(m, 1), and leaves the flow of every arc outside the coupled pairs
unchanged. -/
theorem synchronizeDivisionDuplicateArcFlows_couples (g : FG) (hwf : WF g)
    (hnd : g.arcs.Nodup)
    (hkeys : (g.parentToDuplicateMap.map Prod.fst).Nodup) :
    (∀ p ∈ couplingPairs g,
      (synchronizeDivisionDuplicateArcFlows g).flowMap p.1
        = max (g.flowMap p.1) (g.flowMap p.2) ∧
      (synchronizeDivisionDuplicateArcFlows g).flowMap p.2
        = min (max (g.flowMap p.1) (g.flowMap p.2)) 1) ∧
    (∀ b, (∀ p ∈ couplingPairs g, b ≠ p.1 ∧ b ≠ p.2) →
      (synchronizeDivisionDuplicateArcFlows g).flowMap b = g.flowMap b) := by
  constructor
  · rintro ⟨av, ad⟩ hp
    obtain ⟨hav, had, hmap, htgt⟩ := (mem_couplingPairs g av ad).mp hp
    have hmem : (g.arcSrc av, g.arcSrc ad) ∈ g.parentToDuplicateMap :=
      mapFind?_mem _ _ _ hmap
    have h := syncOuter_hit g hwf hnd av ad hp g.parentToDuplicateMap hkeys
      (fun pr hpr => mapFind?_of_mem_nodupKeys _ hkeys pr hpr) hmem g (shapeEq_rfl g)
    exact ⟨h.1, h.2.1⟩
  · intro b hb
    have h := syncOuterFold_unpaired g b hb g.parentToDuplicateMap
      (fun pr hpr => mapFind?_of_mem_nodupKeys _ hkeys pr hpr) g (shapeEq_rfl g)
    exact h.1

/-- C10 witness: on the concrete graph with a division in place and
flows 2 on the parent arc and 1 on the duplicate arc, the
synchronisation conclusion holds with all hypotheses discharged. -/
theorem synchronizeDivisionDuplicateArcFlows_couples_witness :
    (∀ p ∈ couplingPairs gPre,
      (synchronizeDivisionDuplicateArcFlows gPre).flowMap p.1
        = max (gPre.flowMap p.1) (gPre.flowMap p.2) ∧
      (synchronizeDivisionDuplicateArcFlows gPre).flowMap p.2
        = min (max (gPre.flowMap p.1) (gPre.flowMap p.2)) 1) ∧
    (∀ b, (∀ p ∈ couplingPairs gPre, b ≠ p.1 ∧ b ≠ p.2) →
      (synchronizeDivisionDuplicateArcFlows gPre).flowMap b = gPre.flowMap b) :=
  synchronizeDivisionDuplicateArcFlows_couples gPre
    ⟨by decide, by decide, by decide, by decide, by decide⟩ (by decide) (by decide)

end Dpct
